import Mathlib

/-!
Shallow embedding of the notebook cell-editing subsystem of the repository
(`src/vs/workbench/contrib/notebook/browser/controller/cellOperations.ts`,
the SQL-Carbon `BulkCellEdits` / `convertToCellEdit` pair, and
`src/vs/workbench/contrib/debug/browser/debugAdapterManager.ts`), together
with proofs of the specification's claims about it.

Text is modelled as `List Char`; machine numbers as `Nat` (all the indices
involved are array indices that the sources keep non-negative on the paths
the theorems speak about).  The host-side notebook text model
(`NotebookTextModel.applyEdits` and the undo stack) is not part of the
provided sources; it is modelled from the spec where needed, and every such
definition is marked `Modelled from the spec:`.
-/

namespace Nb

/-! ### Data model: cells, ranges, selection state (spec §3) -/

/-- Cell kind, `CellKind` in notebookCommon: code or markup. -/
inductive CellKind where
  | code
  | markup
deriving DecidableEq, Repr

/-- Opaque output payload (`IOutputDto`); its contents play no role in any claim. -/
inductive OutputDto where
  | mk
deriving DecidableEq, Repr

/-- Opaque cell metadata payload (`NotebookCellMetadata`). -/
inductive CellMetadata where
  | mk
deriving DecidableEq, Repr

/-- A read-only text buffer: the cell's lines plus its end-of-line sequence.
`getValueInRange`, `getLineCount`, `getLineLength`, `getEOL` below model the
`IReadonlyTextBuffer` accessors the sources use. -/
structure TextBuffer where
  lines : List (List Char)
  eol : List Char
deriving DecidableEq, Repr

/-- Line count of the buffer. -/
def TextBuffer.getLineCount (tb : TextBuffer) : Nat :=
  tb.lines.length

/-- The (1-based) line `n` of the buffer; lines outside the buffer read as empty. -/
def TextBuffer.lineAt (tb : TextBuffer) (n : Nat) : List Char :=
  tb.lines.getD (n - 1) []

/-- Length of the (1-based) line `n`. -/
def TextBuffer.getLineLength (tb : TextBuffer) (n : Nat) : Nat :=
  (tb.lineAt n).length

/-- Full text of the buffer (used for `cell.getText()`): lines joined by the EOL. -/
def TextBuffer.getText (tb : TextBuffer) : List Char :=
  List.intercalate tb.eol tb.lines

/-- Build a buffer from a flat source text, splitting on newline. -/
def TextBuffer.ofText (s : List Char) : TextBuffer :=
  { lines := s.splitOn '\n', eol := ['\n'] }

/-- A notebook cell.  `mime`, `outputs` and `metadata` are carried verbatim by
the operations and never inspected by any claim. -/
structure Cell where
  cellKind : CellKind
  language : String
  mime : Option String
  uri : String
  textBuffer : TextBuffer
  outputs : List OutputDto
  metadata : Option CellMetadata
deriving DecidableEq, Repr

/-- `cell.getText()`: the cell's buffer contents. -/
def Cell.getText (c : Cell) : List Char :=
  c.textBuffer.getText

/-- `ICellRange`: half-open index interval over the document's cell sequence. -/
structure ICellRange where
  start : Nat
  «end» : Nat
deriving DecidableEq, Repr

/-- Selection state of kind `SelectionStateType.Index`: a focus range plus
selection ranges (spec §3). -/
structure SelectionState where
  focus : ICellRange
  selections : List ICellRange
deriving DecidableEq, Repr

/-- A range lies within `[0, n]` (`start ≥ 0` is automatic over `Nat`). -/
def rangeWithin (r : ICellRange) (n : Nat) : Prop :=
  r.start ≤ n ∧ r.«end» ≤ n

instance (r : ICellRange) (n : Nat) : Decidable (rangeWithin r n) := by
  unfold rangeWithin; infer_instance

/-- Every range of the selection state (focus and selections) lies within `[0, n]`. -/
def selectionStateWithin (s : SelectionState) (n : Nat) : Prop :=
  rangeWithin s.focus n ∧ ∀ r ∈ s.selections, rangeWithin r n

instance (s : SelectionState) (n : Nat) : Decidable (selectionStateWithin s n) := by
  unfold selectionStateWithin; infer_instance

/-! ### Edit operations and the transaction applier (spec §3, §4.1) -/

/-- Edit Operation (spec §3): tagged variant
`Replace(index, count, newCells)` / `Move(index, length, newIdx)`.
The model conflates the cell DTO handed to a Replace with the cell it
becomes, since the translation is field-for-field. -/
inductive EditOp where
  | replace (index : Nat) (count : Nat) (cells : List Cell)
  | move (index : Nat) (length : Nat) (newIdx : Nat)
deriving DecidableEq, Repr

/-- Cells removed by one edit operation. -/
def removedCount : EditOp → Nat
  | .replace _ count _ => count
  | .move _ length _ => length

/-- Cells inserted by one edit operation. -/
def insertedCount : EditOp → Nat
  | .replace _ _ cells => cells.length
  | .move _ length _ => length

/-- Modelled from the spec: the per-operation document mutation performed by
the host `NotebookTextModel.applyEdits` (not part of the provided sources).
`Replace(index, count, cells)` splices `cells` in place of the `count` cells
at `index`; `Move(index, length, newIdx)` removes the range
`[index, index+length)` and reinserts it at `newIdx`, where `newIdx` is
expressed in the index space of the document after the moved range has been
removed (spec §4.1). -/
def applyOp (cells : List Cell) : EditOp → List Cell
  | .replace index count newCells =>
      cells.take index ++ newCells ++ cells.drop (index + count)
  | .move index length newIdx =>
      let moved := (cells.drop index).take length
      let rest := cells.take index ++ cells.drop (index + length)
      rest.take newIdx ++ moved ++ rest.drop newIdx

/-- Modelled from the spec: application of an ordered list of Edit Operations. -/
def applyOps (cells : List Cell) (edits : List EditOp) : List Cell :=
  edits.foldl applyOp cells

/-- An edit operation is in range for a document of `n` cells: the replaced or
moved range lies inside the document, and a Move target (post-removal index
space) lies inside the shrunk document. -/
def opValid (n : Nat) : EditOp → Prop
  | .replace index count _ => index + count ≤ n
  | .move index length newIdx => index + length ≤ n ∧ newIdx + length ≤ n

instance (n : Nat) (e : EditOp) : Decidable (opValid n e) := by
  cases e <;> (unfold opValid; infer_instance)

/-- Each edit of the batch is in range at its application point. -/
def opsValid : Nat → List EditOp → Prop
  | _, [] => True
  | n, e :: es => opValid n e ∧ opsValid (n - removedCount e + insertedCount e) es

instance : (n : Nat) → (es : List EditOp) → Decidable (opsValid n es)
  | _, [] => by unfold opsValid; infer_instance
  | n, e :: es =>
    have : Decidable (opsValid (n - removedCount e + insertedCount e) es) :=
      instDecidableOpsValid _ es
    by unfold opsValid; infer_instance

/-- Modelled from the spec: the state owned by the notebook text model — the
cell sequence, the current Selection State, and the undo stack.  One undo
entry is one whole edit batch (spec §4.1). -/
structure NotebookState where
  uri : String
  cells : List Cell
  selectionState : SelectionState
  undoStack : List (List Cell × SelectionState)
deriving DecidableEq, Repr

/-- Modelled from the spec: `NotebookTextModel.applyEdits` (host, not in the
provided sources).  Applies the whole batch as one indivisible change,
registers exactly one undo entry capturing the pre-batch cells and the
caller-supplied before-Selection-State (when `pushUndoStop` is set), and
installs the caller-computed end Selection State (spec §4.1).  The
`synchronous` flag of the source only selects the view-update path and has no
effect on the document, so it is not a parameter here. -/
def NotebookState.applyEdits (st : NotebookState) (edits : List EditOp)
    (beforeSel : SelectionState) (endSel : SelectionState)
    (pushUndoStop : Bool) : NotebookState :=
  { st with
    cells := applyOps st.cells edits
    selectionState := endSel
    undoStack :=
      if pushUndoStop then (st.cells, beforeSel) :: st.undoStack else st.undoStack }

/-- Modelled from the spec: undo pops the top undo entry and restores the
captured cells and Selection State (spec §4.1). -/
def NotebookState.undo (st : NotebookState) : NotebookState :=
  match st.undoStack with
  | [] => st
  | (cells, sel) :: rest =>
      { st with cells := cells, selectionState := sel, undoStack := rest }

/-! ### The notebook editor surface used by cellOperations.ts -/

/-- A notebook kernel: only its supported languages are consulted. -/
structure Kernel where
  supportedLanguages : List String
deriving DecidableEq, Repr

/-- The notebook editor as seen by `cellOperations.ts`.  `hasModel = false`
models an editor whose `hasModel()` type guard fails; functions typed against
`IActiveNotebookEditor` in the source are only ever reachable with
`hasModel = true`. -/
structure NotebookEditor where
  hasModel : Bool
  isReadOnly : Bool
  model : NotebookState
  activeKernel : Option Kernel
deriving DecidableEq, Repr

/-- `editor.getFocus()`. -/
def NotebookEditor.getFocus (ed : NotebookEditor) : ICellRange :=
  ed.model.selectionState.focus

/-- `editor.getSelections()`. -/
def NotebookEditor.getSelections (ed : NotebookEditor) : List ICellRange :=
  ed.model.selectionState.selections

/-- `editor.cellAt(index)`. -/
def NotebookEditor.cellAt (ed : NotebookEditor) (i : Nat) : Option Cell :=
  ed.model.cells.get? i

/-- `editor.getLength()`. -/
def NotebookEditor.getLength (ed : NotebookEditor) : Nat :=
  ed.model.cells.length

/-- `editor.getCellIndex(cell)`: the source resolves the view cell to its model
index by identity; the model uses value equality. -/
def NotebookEditor.getCellIndex (ed : NotebookEditor) (c : Cell) : Nat :=
  ed.model.cells.indexOf c

/-- `editor.getCellsInRange(range)`: the cells of the half-open range, clamped
to the document (host accessor; spec §3 defines Cell Range as a half-open
index interval over the document's cell sequence). -/
def NotebookEditor.getCellsInRange (ed : NotebookEditor) (r : ICellRange) : List Cell :=
  (ed.model.cells.drop r.start).take (r.«end» - r.start)

/-! ### cellOperations.ts translations -/

/-- `INotebookActionContext` / `INotebookCellActionContext`: the parts the
translated operations read. -/
structure NotebookActionContext where
  notebookEditor : NotebookEditor
  ui : Bool
  cell : Option Cell
  selectedCells : Option (List Cell)
deriving DecidableEq, Repr

/-- `cellRangeContains` from notebookRange.ts (helper outside the provided
sources): `other.start >= range.start && other.end <= range.end`. -/
def cellRangeContains (range other : ICellRange) : Bool :=
  decide (range.start ≤ other.start) && decide (other.«end» ≤ range.«end»)

/-- Direction argument for join/insert operations. -/
inductive VerticalDirection where
  | above
  | below
deriving DecidableEq, Repr

/-- Direction argument for move/copy operations. -/
inductive UpDownDirection where
  | up
  | down
deriving DecidableEq, Repr

/-- `insertCellAtIndex` (cellOperations.ts:629-649): submits a single
`Replace(index, 0, [dto])` batch whose end Selection State focuses the new
cell, with the current focus/selections as the before state, and returns the
cell now at `index`. -/
def insertCellAtIndex (viewModel : NotebookState) (index : Nat) (source : List Char)
    (language : String) (type : CellKind) (metadata : Option CellMetadata)
    (outputs : List OutputDto) (pushUndoStop : Bool) :
    NotebookState × Option Cell :=
  let endSelections : SelectionState :=
    { focus := ⟨index, index + 1⟩, selections := [⟨index, index + 1⟩] }
  let newCell : Cell :=
    { cellKind := type
      language := language
      mime := none
      uri := ""
      textBuffer := TextBuffer.ofText source
      outputs := outputs
      metadata := metadata }
  let st :=
    viewModel.applyEdits [.replace index 0 [newCell]]
      { focus := viewModel.selectionState.focus
        selections := viewModel.selectionState.selections }
      endSelections pushUndoStop
  (st, st.cells.get? index)

/-- `moveCellToIdx` (cellOperations.ts:660-675): returns `false` when no cell
sits at `index`; otherwise applies a single `Move(index, length, newIdx)`
batch — `newIdx` is taken literally, in the index scheme of the document
after the moved range has been removed (doc comment at line 656). -/
def moveCellToIdx (ed : NotebookEditor) (index length newIdx : Nat) :
    NotebookEditor × Bool :=
  match ed.cellAt index with
  | none => (ed, false)
  | some _ =>
      let st :=
        ed.model.applyEdits [.move index length newIdx]
          { focus := ed.getFocus, selections := ed.getSelections }
          { focus := ⟨newIdx, newIdx + 1⟩, selections := [⟨newIdx, newIdx + 1⟩] }
          true
      ({ ed with model := st }, true)

/-- The final selections computed by the no-containing-selection branch of
`runDeleteAction` (cellOperations.ts:152-163): selections before the deleted
cell are kept, selections after it are shifted down by one, and a selection
at the target collapses to the target's slot. -/
def deleteFinalSelections (selections : List ICellRange) (targetCellIndex : Nat) :
    List ICellRange :=
  selections.map (fun selection =>
    if selection.«end» ≤ targetCellIndex then selection
    else if targetCellIndex < selection.start then
      ⟨selection.start - 1, selection.«end» - 1⟩
    else ⟨targetCellIndex, targetCellIndex + 1⟩)

/-- The deferred end-selection computer of the containing-selection branch of
`runDeleteAction` (cellOperations.ts:132-145), evaluated on the post-edit
cells: focus the surviving cell that followed the containing selection, else
the last remaining cell, else the empty-document state.  The source locates
the surviving cell by handle; the model uses value equality, and `findIdx`
returns the list length on a miss where JS `findIndex` returns `-1` — the
theorems only visit inputs on which the cell is found. -/
def deleteContainingEndSel (newCells : List Cell) :
    Option Cell → SelectionState
  | some nextCellAfterContainingSelection =>
      let cellIndex := newCells.findIdx (fun c => c = nextCellAfterContainingSelection)
      { focus := ⟨cellIndex, cellIndex + 1⟩, selections := [⟨cellIndex, cellIndex + 1⟩] }
  | none =>
      if newCells.length ≠ 0 then
        let lastCellIndex := newCells.length - 1
        { focus := ⟨lastCellIndex, lastCellIndex + 1⟩,
          selections := [⟨lastCellIndex, lastCellIndex + 1⟩] }
      else { focus := ⟨0, 0⟩, selections := [⟨0, 0⟩] }

/-- `runDeleteAction` (cellOperations.ts:119-181): when some selection
contains the target cell, every selection is deleted (in reverse order) and
the focus moves to the survivor after the containing selection; otherwise
just the target cell is deleted and the current focus/selections are shifted
around the removed index.  As with `getCellIndex`, the identity comparisons
of the source (`cell.handle === next.handle` at line 134,
`editor.cellAt(focus.start) === cell` at line 165) are modelled by value
equality. -/
def runDeleteAction (ed : NotebookEditor) (cell : Cell) : NotebookEditor :=
  let selections := ed.getSelections
  let targetCellIndex := ed.getCellIndex cell
  match selections.find? (fun selection =>
      decide (selection.start ≤ targetCellIndex)
        && decide (targetCellIndex < selection.«end»)) with
  | some containingSelection =>
      let edits := selections.reverse.map (fun selection =>
        EditOp.replace selection.start (selection.«end» - selection.start) [])
      let nextCellAfterContainingSelection :=
        if ed.getLength ≤ containingSelection.«end» then none
        else ed.cellAt containingSelection.«end»
      { ed with
        model :=
          ed.model.applyEdits edits
            { focus := ed.getFocus, selections := ed.getSelections }
            (deleteContainingEndSel (applyOps ed.model.cells edits)
              nextCellAfterContainingSelection)
            true }
  | none =>
      let focus := ed.getFocus
      let edits := [EditOp.replace targetCellIndex 1 []]
      let finalSelections := deleteFinalSelections selections targetCellIndex
      if ed.cellAt focus.start = some cell then
        let newFocus :=
          if focus.«end» = ed.model.cells.length then
            (⟨focus.start - 1, focus.«end» - 1⟩ : ICellRange)
          else focus
        { ed with
          model :=
            ed.model.applyEdits edits
              { focus := ed.getFocus, selections := ed.getSelections }
              { focus := newFocus, selections := finalSelections } true }
      else
        let newFocus :=
          if targetCellIndex < focus.start then
            (⟨focus.start - 1, focus.«end» - 1⟩ : ICellRange)
          else focus
        { ed with
          model :=
            ed.model.applyEdits edits
              { focus := ed.getFocus, selections := ed.getSelections }
              { focus := newFocus, selections := finalSelections } true }

/-- The replace edit `changeCellToKind` builds for one cell. -/
def changeKindEditFor (ed : NotebookEditor) (kind : CellKind) (language : String)
    (mime : Option String) (c : Cell) : EditOp :=
  .replace (ed.getCellIndex c) 1
    [{ cellKind := kind
       language := language
       mime := (match mime with | some m => some m | none => c.mime)
       uri := ""
       textBuffer := TextBuffer.ofText c.getText
       outputs := c.outputs
       metadata := c.metadata }]

/-- `changeCellToKind` (cellOperations.ts:19-117).  No-ops when the editor has
no model or is read-only; otherwise replaces the context cell (UI path) or
every selected cell of a different kind (multi-select path) by a cell of the
requested kind with the same text.  When `language` is not supplied it falls
back to the kernel's first supported language, else `plaintext` (`??`, so an
empty string is kept).  The trailing `focusNotebookCell` call of the UI path
is view-layer only and does not touch the document model. -/
def changeCellToKind (kind : CellKind) (context : NotebookActionContext)
    (language : Option String) (mime : Option String) : NotebookEditor :=
  let ed := context.notebookEditor
  if !ed.hasModel then ed
  else if ed.isReadOnly then ed
  else if context.ui && context.cell.isSome then
    match context.cell with
    | none => ed
    | some cell =>
        if cell.cellKind = kind then ed
        else
          let language :=
            match language with
            | some l => l
            | none =>
                let availableLanguages :=
                  match ed.activeKernel with
                  | some k => k.supportedLanguages
                  | none => []
                availableLanguages.getD 0 "plaintext"
          let before : SelectionState :=
            { focus := ed.getFocus, selections := ed.getSelections }
          { ed with
            model :=
              ed.model.applyEdits [changeKindEditFor ed kind language mime cell]
                before before true }
  else
    match context.selectedCells with
    | none => ed
    | some selectedCells =>
        let language :=
          match language with
          | some l => l
          | none =>
              let availableLanguages :=
                match ed.activeKernel with
                | some k => k.supportedLanguages
                | none => []
              availableLanguages.getD 0 "plaintext"
        let rawEdits :=
          (selectedCells.filter (fun c => c.cellKind ≠ kind)).map
            (changeKindEditFor ed kind language mime)
        let before : SelectionState :=
          { focus := ed.getFocus, selections := ed.getSelections }
        { ed with model := ed.model.applyEdits rawEdits before before true }

/-- `moveCellRange` (cellOperations.ts:183-258).  `expand` stands for the host
helper `expandCellRangesWithHiddenCells` (not in the provided sources); with
no hidden cells it is the identity on the selections.  The trailing
`revealCellRangeInView` is view-layer only. -/
def moveCellRange (expand : NotebookEditor → List ICellRange → List ICellRange)
    (context : NotebookActionContext) (direction : UpDownDirection) : NotebookEditor :=
  if !context.notebookEditor.hasModel then context.notebookEditor
  else
    let ed := context.notebookEditor
    if ed.isReadOnly then ed
    else
      let selections := ed.getSelections
      let modelRanges := expand ed selections
      match modelRanges.head? with
      | none => ed
      | some range =>
          if range.start = range.«end» then ed
          else
            match direction with
            | .up =>
                if range.start = 0 then ed
                else
                  let indexAbove := range.start - 1
                  let finalSelection : ICellRange := ⟨range.start - 1, range.«end» - 1⟩
                  let focus := ed.getFocus
                  let newFocus : ICellRange :=
                    if cellRangeContains range focus then
                      ⟨focus.start - 1, focus.«end» - 1⟩
                    else ⟨range.start - 1, range.start⟩
                  { ed with
                    model :=
                      ed.model.applyEdits [.move indexAbove 1 (range.«end» - 1)]
                        { focus := ed.getFocus, selections := ed.getSelections }
                        { focus := newFocus, selections := [finalSelection] } true }
            | .down =>
                if ed.model.cells.length ≤ range.«end» then ed
                else
                  let indexBelow := range.«end»
                  let finalSelection : ICellRange := ⟨range.start + 1, range.«end» + 1⟩
                  let focus := ed.getFocus
                  let newFocus : ICellRange :=
                    if cellRangeContains range focus then
                      ⟨focus.start + 1, focus.«end» + 1⟩
                    else ⟨range.start + 1, range.start + 2⟩
                  { ed with
                    model :=
                      ed.model.applyEdits [.move indexBelow 1 range.start]
                        { focus := ed.getFocus, selections := ed.getSelections }
                        { focus := newFocus, selections := [finalSelection] } true }

/-- `cellRangesToIndexes([range]).map(i => clone(cellAt(i)!.model))`: the cells
of the range, cloned (cloning a cell text model copies its fields, so it is
the identity on the value level). -/
def cloneCellsOfRange (ed : NotebookEditor) (range : ICellRange) : List Cell :=
  (List.range' range.start (range.«end» - range.start)).filterMap ed.cellAt

/-- `copyCellRange` (cellOperations.ts:260-336).  As with `moveCellRange`,
`expand` stands for `expandCellRangesWithHiddenCells` and the trailing reveal
call is view-layer only. -/
def copyCellRange (expand : NotebookEditor → List ICellRange → List ICellRange)
    (context : NotebookActionContext) (direction : UpDownDirection) : NotebookEditor :=
  let ed := context.notebookEditor
  if !ed.hasModel then ed
  else if ed.isReadOnly then ed
  else
    let range : Option ICellRange :=
      if context.ui then
        match context.cell with
        | some targetCell => some ⟨ed.getCellIndex targetCell, ed.getCellIndex targetCell + 1⟩
        | none => none
      else (expand ed ed.getSelections).head?
    match range with
    | none => ed
    | some range =>
        if range.start = range.«end» then ed
        else
          match direction with
          | .up =>
              let focus := ed.getFocus
              let selections := ed.getSelections
              { ed with
                model :=
                  ed.model.applyEdits
                    [.replace range.«end» 0 (cloneCellsOfRange ed range)]
                    { focus := focus, selections := selections }
                    { focus := focus, selections := selections } true }
          | .down =>
              let focus := ed.getFocus
              let selections := ed.getSelections
              let newCells := cloneCellsOfRange ed range
              let countDelta := newCells.length
              let newFocus : ICellRange :=
                if context.ui then focus
                else ⟨focus.start + countDelta, focus.«end» + countDelta⟩
              let newSelections : List ICellRange :=
                if context.ui then selections
                else [⟨range.start + countDelta, range.«end» + countDelta⟩]
              { ed with
                model :=
                  ed.model.applyEdits
                    [.replace range.«end» 0 (cloneCellsOfRange ed range)]
                    { focus := focus, selections := selections }
                    { focus := newFocus, selections := newSelections } true }

/-- `insertCell` (cellOperations.ts:576-627).  `registeredModes`,
`getNextVisibleCellIndex` and `nearestCodeCellIndex` stand for the host mode
service and view-model helpers (not in the provided sources);
`nearestCodeCellIndex` returns `-1` when no code cell exists, as in the
source.  Returns the updated editor and the inserted cell (`none` when
read-only). -/
def insertCell (registeredModes : List String)
    (getNextVisibleCellIndex : Nat → Nat) (nearestCodeCellIndex : Nat → Int)
    (ed : NotebookEditor) (index : Nat) (type : CellKind)
    (direction : VerticalDirection) (initialText : List Char) (ui : Bool) :
    NotebookEditor × Option Cell :=
  if ed.isReadOnly then (ed, none)
  else
    let cell := ed.cellAt index
    let nextIndex := if ui then getNextVisibleCellIndex index else index + 1
    let language :=
      if type = CellKind.code then
        let supportedLanguages :=
          match ed.activeKernel with
          | some k => k.supportedLanguages
          | none => registeredModes
        let defaultLanguage :=
          match supportedLanguages.head? with
          | some l => if l = "" then "plaintext" else l
          | none => "plaintext"
        let lang0 :=
          match cell with
          | some c =>
              if c.cellKind = CellKind.code then c.language
              else
                let i := nearestCodeCellIndex index
                if i > -1 then
                  match ed.cellAt i.toNat with
                  | some nc => nc.language
                  | none => defaultLanguage
                else defaultLanguage
          | none =>
              if direction = VerticalDirection.above then
                match ed.model.cells.find? (fun c => c.cellKind = CellKind.code) with
                | some c => if c.language = "" then defaultLanguage else c.language
                | none => defaultLanguage
              else defaultLanguage
        if supportedLanguages.contains lang0 then lang0 else defaultLanguage
      else "markdown"
    let insertIndex :=
      match cell with
      | some _ => if direction = VerticalDirection.above then index else nextIndex
      | none => index
    let st := insertCellAtIndex ed.model insertIndex initialText language type none [] true
    ({ ed with model := st.1 }, st.2)

/-! ### joinNotebookCells (cellOperations.ts:338-422) -/

/-- A position in a text buffer (`IPosition`): 1-based line and column. -/
structure IPosition where
  lineNumber : Nat
  column : Nat
deriving DecidableEq, Repr

/-- A four-number editor range (`Range`). -/
structure Range4 where
  startLineNumber : Nat
  startColumn : Nat
  endLineNumber : Nat
  endColumn : Nat
deriving DecidableEq, Repr

/-- A `ResourceEdit` produced by `joinNotebookCells`: either a
`ResourceTextEdit` against a cell's text, or a `ResourceNotebookCellEdit`
against the notebook document. -/
inductive ResourceEdit where
  | textEdit (uri : String) (range : Range4) (text : List Char)
  | cellEdit (uri : String) (edit : EditOp)
deriving DecidableEq, Repr

/-- The non-null result of `joinNotebookCells`. -/
structure JoinResult where
  edits : List ResourceEdit
  cell : Cell
  endFocus : ICellRange
  endSelections : List ICellRange
deriving DecidableEq, Repr

/-- Does some cell of `cs` violate the kind constraint? (the
`for` loop over `cells` at cellOperations.ts:358-364). -/
def kindViolated (constraint : Option CellKind) (cs : List Cell) : Bool :=
  match constraint with
  | none => false
  | some k => cs.any (fun c => decide (c.cellKind ≠ k))

/-- Does the adjacent cell violate the kind constraint? -/
def adjacentKindViolated (constraint : Option CellKind) (c : Cell) : Bool :=
  match constraint with
  | none => false
  | some k => decide (c.cellKind ≠ k)

/-- `joinNotebookCells` (cellOperations.ts:338-422).  Computes — but does not
apply — the text edit appending the joined cells' text and the cell edit
deleting them, plus the end focus/selections; returns `none` (the source's
`null`) on read-only editors, empty ranges, boundary-crossing joins and kind
constraint violations.  The source casts `editor.cellAt(...)` to a present
cell; the `none` fallbacks of those two lookups are unreachable for ranges
inside the document. -/
def joinNotebookCells (ed : NotebookEditor) (range : ICellRange)
    (direction : VerticalDirection) (constraint : Option CellKind) :
    Option JoinResult :=
  if ed.isReadOnly then none
  else
    let cells := ed.getCellsInRange range
    if cells.length = 0 then none
    else if range.start = 0 && direction = VerticalDirection.above then none
    else if range.«end» = ed.model.cells.length && direction = VerticalDirection.below then none
    else if kindViolated constraint cells then none
    else
      match direction with
      | .above =>
          match ed.cellAt (range.start - 1) with
          | none => none
          | some above =>
              if adjacentKindViolated constraint above then none
              else
                let insertContent :=
                  (cells.map (fun c => c.textBuffer.eol ++ c.getText)).flatten
                let aboveCellLineCount := above.textBuffer.getLineCount
                let aboveCellLastLineEndColumn :=
                  above.textBuffer.getLineLength aboveCellLineCount
                some
                  { edits :=
                      [ .textEdit above.uri
                          ⟨aboveCellLineCount, aboveCellLastLineEndColumn + 1,
                            aboveCellLineCount, aboveCellLastLineEndColumn + 1⟩
                          insertContent
                      , .cellEdit ed.model.uri
                          (.replace range.start (range.«end» - range.start) []) ]
                    cell := above
                    endFocus := ⟨range.start - 1, range.start⟩
                    endSelections := [⟨range.start - 1, range.start⟩] }
      | .below =>
          match ed.cellAt range.«end» with
          | none => none
          | some below =>
              if adjacentKindViolated constraint below then none
              else
                match cells with
                | [] => none
                | cell :: restOfRange =>
                    let restCells := restOfRange ++ [below]
                    let insertContent :=
                      (restCells.map (fun cl => cl.textBuffer.eol ++ cl.getText)).flatten
                    let cellLineCount := cell.textBuffer.getLineCount
                    let cellLastLineEndColumn :=
                      cell.textBuffer.getLineLength cellLineCount
                    some
                      { edits :=
                          [ .textEdit cell.uri
                              ⟨cellLineCount, cellLastLineEndColumn + 1,
                                cellLineCount, cellLastLineEndColumn + 1⟩
                              insertContent
                          , .cellEdit ed.model.uri
                              (.replace (range.start + 1) (range.«end» - range.start) []) ]
                        cell := cell
                        endFocus := ⟨range.start, range.start + 1⟩
                        endSelections := [⟨range.start, range.start + 1⟩] }

/-- The rejection condition actually implemented by `joinNotebookCells`
(read-only editor, empty range, boundary-crossing join, kind violation in the
range or at the adjacent cell; an absent adjacent cell counts as rejection,
matching the model's fallback). -/
def joinRejected (ed : NotebookEditor) (range : ICellRange)
    (direction : VerticalDirection) (constraint : Option CellKind) : Bool :=
  ed.isReadOnly
  || decide ((ed.getCellsInRange range).length = 0)
  || (decide (range.start = 0) && direction = VerticalDirection.above)
  || (decide (range.«end» = ed.model.cells.length) && direction = VerticalDirection.below)
  || kindViolated constraint (ed.getCellsInRange range)
  || (match direction with
      | .above =>
          match ed.cellAt (range.start - 1) with
          | none => true
          | some above => adjacentKindViolated constraint above
      | .below =>
          match ed.cellAt range.«end» with
          | none => true
          | some below => adjacentKindViolated constraint below)

/-- Definition following the claim's words, for comparison with the code:
rejection occurs exactly when the range spans the document boundary in the
requested direction, or a kind constraint is given and some cell of the range
or the adjacent joined cell has a different kind. -/
def joinRejectedClaimed (ed : NotebookEditor) (range : ICellRange)
    (direction : VerticalDirection) (constraint : Option CellKind) : Bool :=
  (direction = VerticalDirection.above && decide (range.start = 0))
  || (direction = VerticalDirection.below && decide (range.«end» = ed.model.cells.length))
  || kindViolated constraint (ed.getCellsInRange range)
  || (match direction with
      | .above =>
          match ed.cellAt (range.start - 1) with
          | none => false
          | some above => adjacentKindViolated constraint above
      | .below =>
          match ed.cellAt range.«end» with
          | none => false
          | some below => adjacentKindViolated constraint below)

/-! ### Split points (cellOperations.ts:522-574) -/

/-- The comparator `_splitPointsToBoundaries` sorts split points by:
line first, then column. -/
def posLe (l r : IPosition) : Prop :=
  l.lineNumber < r.lineNumber ∨ (l.lineNumber = r.lineNumber ∧ l.column ≤ r.column)

instance : DecidableRel posLe := fun l r => by unfold posLe; infer_instance

instance : IsTotal IPosition posLe where
  total a b := by unfold posLe; omega

instance : IsTrans IPosition posLe where
  trans a b c := by unfold posLe; omega

/-- Strict position order. -/
def posLt (l r : IPosition) : Prop :=
  l.lineNumber < r.lineNumber ∨ (l.lineNumber = r.lineNumber ∧ l.column < r.column)

instance : DecidableRel posLt := fun l r => by unfold posLt; infer_instance

instance : IsTrans IPosition posLt where
  trans a b c := by unfold posLt; omega

/-- The end-of-line normalization inside the loop of
`_splitPointsToBoundaries` (cellOperations.ts:537-539): a split point exactly
past the end of a non-empty line that is not the last line is moved to the
start of the next line. -/
def normalizePoint (tb : TextBuffer) (sp : IPosition) : IPosition :=
  if tb.getLineLength sp.lineNumber + 1 = sp.column ∧ sp.column ≠ 1
      ∧ sp.lineNumber < tb.getLineCount then
    ⟨sp.lineNumber + 1, 1⟩
  else sp

/-- `_pushIfAbsent` (cellOperations.ts:553-558): append `p` unless it equals
the last pushed position. -/
def pushIfAbsent (positions : List IPosition) (p : IPosition) : List IPosition :=
  match positions.getLast? with
  | none => positions ++ [p]
  | some last =>
      if last.lineNumber = p.lineNumber ∧ last.column = p.column then positions
      else positions ++ [p]

/-- The buffer-start boundary `modelStart`. -/
def modelStart : IPosition := ⟨1, 1⟩

/-- The buffer-end boundary `modelEnd`: just past the end of the last line. -/
def modelEnd (tb : TextBuffer) : IPosition :=
  ⟨tb.getLineCount, tb.getLineLength tb.getLineCount + 1⟩

/-- `_splitPointsToBoundaries` (cellOperations.ts:522-551): sort the split
points, normalize end-of-line points of non-final lines, drop consecutive
duplicates; `none` when nothing remains, else the boundaries bracketed by
`modelStart` and `modelEnd`. -/
def splitPointsToBoundaries (splitPoints : List IPosition) (tb : TextBuffer) :
    Option (List IPosition) :=
  let sorted := List.insertionSort posLe splitPoints
  let boundaries :=
    sorted.foldl (fun acc sp => pushIfAbsent acc (normalizePoint tb sp)) []
  if boundaries.isEmpty then none
  else some (modelStart :: (boundaries ++ [modelEnd tb]))

/-- `getValueInRange` of the read-only text buffer with
`EndOfLinePreference.TextDefined` (host accessor): the text between two
positions, using the buffer's own EOL. -/
def TextBuffer.getValueInRange (tb : TextBuffer) (a b : IPosition) : List Char :=
  if a.lineNumber = b.lineNumber then
    ((tb.lineAt a.lineNumber).drop (a.column - 1)).take (b.column - a.column)
  else
    (tb.lineAt a.lineNumber).drop (a.column - 1)
      ++ tb.eol
      ++ List.intercalate tb.eol
          (((tb.lines.take (b.lineNumber - 1)).drop a.lineNumber)
            ++ [(tb.lineAt b.lineNumber).take (b.column - 1)])

/-- `computeCellLinesContents` (cellOperations.ts:560-574): the text segments
between consecutive boundaries. -/
def computeCellLinesContents (cell : Cell) (splitPoints : List IPosition) :
    Option (List (List Char)) :=
  match splitPointsToBoundaries splitPoints cell.textBuffer with
  | none => none
  | some rangeBoundaries =>
      some ((rangeBoundaries.zip rangeBoundaries.tail).map
        (fun se => cell.textBuffer.getValueInRange se.1 se.2))

/-- A split point is inside the buffer: an existing line, and a column between
1 and one past the line end. -/
def validPos (tb : TextBuffer) (p : IPosition) : Prop :=
  1 ≤ p.lineNumber ∧ p.lineNumber ≤ tb.getLineCount
    ∧ 1 ≤ p.column ∧ p.column ≤ tb.getLineLength p.lineNumber + 1

instance (tb : TextBuffer) (p : IPosition) : Decidable (validPos tb p) := by
  unfold validPos; infer_instance

/-! ### BulkCellEdits / convertToCellEdit (SQL-Carbon bulkCellEdits.ts) -/

/-- `CellEditType` from notebookCommon — all the tags `convertToCellEdit`
switches over. -/
inductive CellEditType where
  | Replace
  | Output
  | Metadata
  | CellLanguage
  | DocumentMetadata
  | Move
  | OutputItems
  | PartialMetadata
  | PartialInternalMetadata
deriving DecidableEq, Repr

/-- `ICellEditOperation` as consumed by the bulk path: only its `editType` tag
is ever inspected there. -/
structure BulkEditOperation where
  editType : CellEditType
deriving DecidableEq, Repr

/-- `ResourceNotebookCellEdit`: a cell edit addressed to a notebook resource. -/
structure ResourceNotebookCellEdit where
  resource : String
  cellEdit : BulkEditOperation
deriving DecidableEq, Repr

/-- `convertToCellEdit` (bulkCellEdits.ts:422-439): starts from an empty
array, and every `editType` case of the switch executes `continue`, so
nothing is ever appended.  `CellEditT` is the target `ICellEdit` type of the
SQL notebook model (not in the provided sources); no value of it is ever
constructed. -/
def convertToCellEdit (CellEditT : Type) (edits : List BulkEditOperation) :
    List CellEditT :=
  edits.foldl
    (fun convertedEdits edit =>
      match edit.editType with
      | .Replace => convertedEdits
      | .Output => convertedEdits
      | .Metadata => convertedEdits
      | .CellLanguage => convertedEdits
      | .DocumentMetadata => convertedEdits
      | .Move => convertedEdits
      | .OutputItems => convertedEdits
      | .PartialMetadata => convertedEdits
      | .PartialInternalMetadata => convertedEdits)
    []

/-- `groupBy` from vs/base/common/arrays, specialised to the comparator
`compare(a.resource, b.resource)`: sort a copy by resource, then group
consecutive entries with equal resource. -/
def groupRuns (l : List ResourceNotebookCellEdit) : List (List ResourceNotebookCellEdit) :=
  l.foldr
    (fun e acc =>
      match acc with
      | [] => [[e]]
      | g :: gs =>
          match g with
          | [] => [e] :: gs
          | f :: _ => if e.resource = f.resource then (e :: g) :: gs else [e] :: g :: gs)
    []

/-- Resource order used by the sort (`compare` on the resource strings). -/
def resourceLe (a b : ResourceNotebookCellEdit) : Prop :=
  a.resource ≤ b.resource

instance : DecidableRel resourceLe := fun a b => by unfold resourceLe; infer_instance

/-- `this._edits` grouped by notebook: sorted by resource, then split into
runs of equal resource. -/
def editsByNotebook (edits : List ResourceNotebookCellEdit) :
    List (List ResourceNotebookCellEdit) :=
  groupRuns (List.insertionSort resourceLe edits)

/-- The observable state `BulkCellEdits.apply` acts on: the documents of the
host's notebook editors (by resource), the number of progress reports, and
the trace of `editor.applyCellEdits` invocations — one trace entry per
invocation, recording the resource and the edit list handed over. -/
structure BulkState (Doc CellEditT : Type) where
  docs : String → Doc
  progressReports : Nat
  calls : List (String × List CellEditT)

/-- Is cancellation requested at the `i`-th token check?  A cancellation token
is monotone (once requested it stays requested), so its readings along the
sequential checks of the loop are characterised by the index of the first
check that sees it requested (`none`: never). -/
def cancelRequested (cancelAt : Option Nat) (i : Nat) : Bool :=
  match cancelAt with
  | none => false
  | some k => decide (k ≤ i)

/-- One iteration of the loop body of `BulkCellEdits.apply` for a group (the
token check is handled by the caller): look up the editor of the group's
first edit; if present, hand `convertToCellEdit` of the group's cell edits to
`editor.applyCellEdits`; then report progress.  `hasEditor` models
`INotebookService.findNotebookEditor` and `applyOne` the host editor's
application of one converted edit to its document ("Modelled from the spec:"
the host applies the given cell edits as one change to the targeted
notebook); a group is never empty by construction of `groupRuns`. -/
def bulkApplyGroup {Doc CellEditT : Type} (hasEditor : String → Bool)
    (applyOne : Doc → CellEditT → Doc)
    (group : List ResourceNotebookCellEdit) (st : BulkState Doc CellEditT) :
    BulkState Doc CellEditT :=
  let st' :=
    match group.head? with
    | none => st
    | some first =>
        if hasEditor first.resource then
          let edits := convertToCellEdit CellEditT (List.map ResourceNotebookCellEdit.cellEdit group)
          { st with
            docs := fun r =>
              if r = first.resource then edits.foldl applyOne (st.docs first.resource)
              else st.docs r
            calls := st.calls ++ [(first.resource, edits)] }
        else st
  { st' with progressReports := st'.progressReports + 1 }

/-- The `for` loop of `BulkCellEdits.apply` (bulkCellEdits.ts:404-419): before
each group the token is checked once, and a requested cancellation breaks out
of the loop; otherwise the group is processed and the loop continues.  `i`
counts the checks performed so far. -/
def bulkApplyLoop {Doc CellEditT : Type} (hasEditor : String → Bool)
    (applyOne : Doc → CellEditT → Doc) (cancelAt : Option Nat) :
    List (List ResourceNotebookCellEdit) → Nat → BulkState Doc CellEditT →
    BulkState Doc CellEditT
  | [], _, st => st
  | group :: groups, i, st =>
      if cancelRequested cancelAt i then st
      else
        bulkApplyLoop hasEditor applyOne cancelAt groups (i + 1)
          (bulkApplyGroup hasEditor applyOne group st)

/-- `BulkCellEdits.apply`: group the construction-time edits by notebook and
run the loop. -/
def bulkApply {Doc CellEditT : Type} (hasEditor : String → Bool)
    (applyOne : Doc → CellEditT → Doc) (cancelAt : Option Nat)
    (edits : List ResourceNotebookCellEdit) (st : BulkState Doc CellEditT) :
    BulkState Doc CellEditT :=
  bulkApplyLoop hasEditor applyOne cancelAt (editsByNotebook edits) 0 st

/-- The `applyCellEdits` invocations one group contributes to the trace:
one call when the host has an editor for the group's notebook, none
otherwise. -/
def groupCalls {CellEditT : Type} (hasEditor : String → Bool)
    (group : List ResourceNotebookCellEdit) : List (String × List CellEditT) :=
  match group.head? with
  | none => []
  | some first =>
      if hasEditor first.resource then
        [(first.resource, convertToCellEdit CellEditT (List.map ResourceNotebookCellEdit.cellEdit group))]
      else []

/-- The trace contributed by a list of groups. -/
def groupsCalls {CellEditT : Type} (hasEditor : String → Bool)
    (groups : List (List ResourceNotebookCellEdit)) : List (String × List CellEditT) :=
  (groups.map (groupCalls hasEditor)).flatten

/-! ### AdapterManager (debugAdapterManager.ts) -/

/-- `session.configuration`: only its `type` is consulted by the adapter
lookup. -/
structure DebugConfig where
  type : String
deriving DecidableEq, Repr

/-- A debug session. -/
structure DebugSession where
  configuration : DebugConfig
deriving DecidableEq, Repr

/-- `IDebugAdapterFactory` as used by `createDebugAdapter`: it creates a debug
adapter for a session.  `Adapter` is the host's adapter type. -/
structure DebugAdapterFactory (Adapter : Type) where
  createDebugAdapter : DebugSession → Adapter

/-- JS `Map.get`: the value stored at `k`, if any. -/
def mapGet {V : Type} (m : List (String × V)) (k : String) : Option V :=
  (m.find? (fun p => p.1 = k)).map (·.2)

/-- JS `Map.set`: overwrite the value at `k` in place, else append. -/
def mapSet {V : Type} (m : List (String × V)) (k : String) (v : V) :
    List (String × V) :=
  if m.any (fun p => p.1 = k) then
    m.map (fun p => if p.1 = k then (k, v) else p)
  else m ++ [(k, v)]

/-- The `AdapterManager` state consulted by `createDebugAdapter`: the
`debugAdapterFactories` map from debug type to factory. -/
structure AdapterManager (Adapter : Type) where
  debugAdapterFactories : List (String × DebugAdapterFactory Adapter)

/-- `AdapterManager.registerDebugAdapterFactory` (debugAdapterManager.ts:169-179):
stores the factory under every given debug type (the context-key and event
side effects are UI-layer only). -/
def AdapterManager.registerDebugAdapterFactory {Adapter : Type}
    (mgr : AdapterManager Adapter) (debugTypes : List String)
    (debugAdapterLauncher : DebugAdapterFactory Adapter) : AdapterManager Adapter :=
  { mgr with
    debugAdapterFactories :=
      debugTypes.foldl (fun m t => mapSet m t debugAdapterLauncher)
        mgr.debugAdapterFactories }

/-- `AdapterManager.createDebugAdapter` (debugAdapterManager.ts:192-198):
look up the factory registered for the session's configuration type; use it
when present, return `undefined` otherwise. -/
def AdapterManager.createDebugAdapter {Adapter : Type}
    (mgr : AdapterManager Adapter) (session : DebugSession) : Option Adapter :=
  match mapGet mgr.debugAdapterFactories session.configuration.type with
  | some factory => some (factory.createDebugAdapter session)
  | none => none

/-! ### Concrete instances used by witnesses and counterexamples -/

/-- A one-line code cell with text `ab`. -/
def cellW1 : Cell :=
  { cellKind := .code, language := "python", mime := none, uri := "cell-0",
    textBuffer := { lines := [['a', 'b']], eol := ['\n'] },
    outputs := [], metadata := none }

/-- A one-line code cell with text `cd`. -/
def cellW2 : Cell :=
  { cellW1 with
    uri := "cell-1"
    textBuffer := { lines := [['c', 'd']], eol := ['\n'] } }

/-- A one-line markup cell with text `ef`. -/
def cellW3 : Cell :=
  { cellW1 with
    cellKind := .markup
    uri := "cell-2"
    textBuffer := { lines := [['e', 'f']], eol := ['\n'] } }

/-- A two-line code cell with text `ab` / `cd`. -/
def cellW4 : Cell :=
  { cellW1 with
    uri := "cell-3"
    textBuffer := { lines := [['a', 'b'], ['c', 'd']], eol := ['\n'] } }

/-- A three-cell document with a single-cell selection on the first cell. -/
def stThreeW : NotebookState :=
  { uri := "nb-0", cells := [cellW1, cellW2, cellW3],
    selectionState := { focus := ⟨0, 1⟩, selections := [⟨0, 1⟩] },
    undoStack := [] }

/-- A writable active editor over `stThreeW`. -/
def edThreeW : NotebookEditor :=
  { hasModel := true, isReadOnly := false, model := stThreeW, activeKernel := none }

/-- The same editor, read-only. -/
def edReadOnlyW : NotebookEditor :=
  { edThreeW with isReadOnly := true }

/-- The same editor with no model. -/
def edNoModelW : NotebookEditor :=
  { edThreeW with hasModel := false }

/-- The writable three-cell editor with focus and selection on the second
cell (so that deleting the first cell exercises the no-containing-selection
branch of `runDeleteAction`). -/
def edDeleteW : NotebookEditor :=
  { edThreeW with
    model :=
      { stThreeW with
        selectionState := { focus := ⟨1, 2⟩, selections := [⟨1, 2⟩] } } }

/-! ## Theorems -/

/-! ### Shared lemmas about the bulk-edit path -/

/-- Every switch case of `convertToCellEdit` falls through, so nothing is ever
appended to the initially-empty array. -/
theorem convertToCellEdit_eq_nil (CellEditT : Type) (edits : List BulkEditOperation) :
    convertToCellEdit CellEditT edits = [] := by
  suffices h : ∀ acc : List CellEditT,
      edits.foldl
        (fun convertedEdits edit =>
          match edit.editType with
          | .Replace => convertedEdits
          | .Output => convertedEdits
          | .Metadata => convertedEdits
          | .CellLanguage => convertedEdits
          | .DocumentMetadata => convertedEdits
          | .Move => convertedEdits
          | .OutputItems => convertedEdits
          | .PartialMetadata => convertedEdits
          | .PartialInternalMetadata => convertedEdits)
        acc = acc by
    exact h []
  induction edits with
  | nil => intro acc; rfl
  | cons e es ih =>
      intro acc
      have hstep :
          (match e.editType with
            | CellEditType.Replace => acc
            | CellEditType.Output => acc
            | CellEditType.Metadata => acc
            | CellEditType.CellLanguage => acc
            | CellEditType.DocumentMetadata => acc
            | CellEditType.Move => acc
            | CellEditType.OutputItems => acc
            | CellEditType.PartialMetadata => acc
            | CellEditType.PartialInternalMetadata => acc) = acc := by
        cases e.editType <;> rfl
      simpa [List.foldl_cons, hstep] using ih acc

/-- One loop iteration leaves the documents untouched: the converted edit list
is empty, so folding it over the document is the identity. -/
theorem bulkApplyGroup_docs {Doc CellEditT : Type} (hasEditor : String → Bool)
    (applyOne : Doc → CellEditT → Doc) (group : List ResourceNotebookCellEdit)
    (st : BulkState Doc CellEditT) :
    (bulkApplyGroup hasEditor applyOne group st).docs = st.docs := by
  unfold bulkApplyGroup
  cases hg : group.head? with
  | none => rfl
  | some first =>
      by_cases he : hasEditor first.resource
      · simp only [hg, he, if_true, convertToCellEdit_eq_nil, List.foldl_nil]
        funext r
        by_cases hr : r = first.resource <;> simp [hr]
      · simp [hg, he]

/-- One loop iteration appends exactly the group's trace entries and reports
progress once. -/
theorem bulkApplyGroup_calls {Doc CellEditT : Type} (hasEditor : String → Bool)
    (applyOne : Doc → CellEditT → Doc) (group : List ResourceNotebookCellEdit)
    (st : BulkState Doc CellEditT) :
    (bulkApplyGroup hasEditor applyOne group st).calls
        = st.calls ++ groupCalls hasEditor group
    ∧ (bulkApplyGroup hasEditor applyOne group st).progressReports
        = st.progressReports + 1 := by
  unfold bulkApplyGroup groupCalls
  cases hg : group.head? with
  | none => simp
  | some first =>
      by_cases he : hasEditor first.resource
      · simp [he]
      · simp [he]

/-- The loop never changes any document. -/
theorem bulkApplyLoop_docs {Doc CellEditT : Type} (hasEditor : String → Bool)
    (applyOne : Doc → CellEditT → Doc) (cancelAt : Option Nat) :
    ∀ (groups : List (List ResourceNotebookCellEdit)) (i : Nat)
      (st : BulkState Doc CellEditT),
      (bulkApplyLoop hasEditor applyOne cancelAt groups i st).docs = st.docs := by
  intro groups
  induction groups with
  | nil => intro i st; rfl
  | cons g gs ih =>
      intro i st
      unfold bulkApplyLoop
      by_cases hc : cancelRequested cancelAt i
      · simp [hc]
      · simp only [hc, Bool.false_eq_true, if_false]
        rw [ih, bulkApplyGroup_docs]

/-- With a token first seen cancelled at the `k`-th check, the loop starting at
check `i` processes exactly the first `k - i` groups: their trace entries are
appended in order and one progress report is made per processed group;
no later group contributes anything. -/
theorem bulkApplyLoop_cancel {Doc CellEditT : Type} (hasEditor : String → Bool)
    (applyOne : Doc → CellEditT → Doc) (k : Nat) :
    ∀ (groups : List (List ResourceNotebookCellEdit)) (i : Nat)
      (st : BulkState Doc CellEditT),
      (bulkApplyLoop hasEditor applyOne (some k) groups i st).calls
          = st.calls ++ groupsCalls hasEditor (groups.take (k - i))
      ∧ (bulkApplyLoop hasEditor applyOne (some k) groups i st).progressReports
          = st.progressReports + min (k - i) groups.length := by
  intro groups
  induction groups with
  | nil =>
      intro i st
      simp [bulkApplyLoop, groupsCalls]
  | cons g gs ih =>
      intro i st
      unfold bulkApplyLoop
      by_cases hc : cancelRequested (some k) i
      · have hk : k ≤ i := by
          simpa [cancelRequested, decide_eq_true_eq] using hc
        have hki : k - i = 0 := by omega
        simp [hc, hki, groupsCalls]
      · have hk : ¬ k ≤ i := by
          simpa [cancelRequested, decide_eq_true_eq] using hc
        have hki : k - i = (k - (i + 1)) + 1 := by omega
        simp only [hc, Bool.false_eq_true, if_false]
        obtain ⟨ihc, ihp⟩ := ih (i + 1) (bulkApplyGroup hasEditor applyOne g st)
        obtain ⟨gc, gp⟩ := bulkApplyGroup_calls hasEditor applyOne g st
        constructor
        · rw [ihc, gc, hki]
          simp [groupsCalls, List.append_assoc]
        · rw [ihp, gp, hki]
          simp only [List.length_cons]
          omega

/-- Without cancellation the loop processes every group. -/
theorem bulkApplyLoop_nocancel {Doc CellEditT : Type} (hasEditor : String → Bool)
    (applyOne : Doc → CellEditT → Doc) :
    ∀ (groups : List (List ResourceNotebookCellEdit)) (i : Nat)
      (st : BulkState Doc CellEditT),
      (bulkApplyLoop hasEditor applyOne none groups i st).calls
          = st.calls ++ groupsCalls hasEditor groups := by
  intro groups
  induction groups with
  | nil => intro i st; simp [bulkApplyLoop, groupsCalls]
  | cons g gs ih =>
      intro i st
      unfold bulkApplyLoop
      simp only [cancelRequested, Bool.false_eq_true, if_false]
      rw [ih, (bulkApplyGroup_calls hasEditor applyOne g st).1]
      simp [groupsCalls, List.append_assoc]

/-- C2: for every batch of edit operations given to `BulkCellEdits.apply`,
no partial mutation of any notebook document is observable regardless of
where cancellation strikes — indeed no document is ever mutated at all,
because `convertToCellEdit` discards every edit, so "none of the batch
commits" holds on every run; in particular the whole batch commits or none
does. -/
theorem bulkCellEdits_apply_atomic {Doc CellEditT : Type} (hasEditor : String → Bool)
    (applyOne : Doc → CellEditT → Doc) (cancelAt : Option Nat)
    (edits : List ResourceNotebookCellEdit) (st : BulkState Doc CellEditT) :
    (bulkApply hasEditor applyOne cancelAt edits st).docs = st.docs := by
  unfold bulkApply
  exact bulkApplyLoop_docs hasEditor applyOne cancelAt (editsByNotebook edits) 0 st

/-- C3: the cancellation token is checked once before each per-notebook group
of `BulkCellEdits.apply`: with the token first seen cancelled at the `k`-th
check, exactly the first `k` groups are processed — their `applyCellEdits`
trace entries are appended in order and stay in the final trace (nothing is
rolled back), one progress report is made per processed group, and no group
from the `k`-th onwards contributes anything; without cancellation every
group is processed. -/
theorem bulkCellEdits_apply_cancellation {Doc CellEditT : Type}
    (hasEditor : String → Bool) (applyOne : Doc → CellEditT → Doc) (k : Nat)
    (edits : List ResourceNotebookCellEdit) (st : BulkState Doc CellEditT) :
    (bulkApply hasEditor applyOne (some k) edits st).calls
        = st.calls ++ groupsCalls hasEditor ((editsByNotebook edits).take k)
    ∧ (bulkApply hasEditor applyOne (some k) edits st).progressReports
        = st.progressReports + min k (editsByNotebook edits).length
    ∧ (bulkApply hasEditor applyOne none edits st).calls
        = st.calls ++ groupsCalls hasEditor (editsByNotebook edits) := by
  unfold bulkApply
  obtain ⟨hc, hp⟩ :=
    bulkApplyLoop_cancel hasEditor applyOne k (editsByNotebook edits) 0 st
  refine ⟨by simpa using hc, by simpa using hp, ?_⟩
  exact bulkApplyLoop_nocancel hasEditor applyOne (editsByNotebook edits) 0 st

/-- C10: `convertToCellEdit` returns the empty list for every input — each
edit type falls through to `continue` and nothing is appended — so
`BulkCellEdits.apply` only ever invokes `editor.applyCellEdits` with an empty
edit list: starting from an empty trace, every recorded invocation carries
`[]`. -/
theorem convertToCellEdit_always_empty {Doc CellEditT : Type}
    (hasEditor : String → Bool) (applyOne : Doc → CellEditT → Doc)
    (cancelAt : Option Nat) (bedits : List BulkEditOperation)
    (redits : List ResourceNotebookCellEdit) (docs0 : String → Doc) (p0 : Nat) :
    convertToCellEdit CellEditT bedits = []
    ∧ ∀ call ∈ (bulkApply hasEditor applyOne cancelAt redits
          { docs := docs0, progressReports := p0, calls := [] }).calls,
        call.2 = ([] : List CellEditT) := by
  refine ⟨convertToCellEdit_eq_nil CellEditT bedits, ?_⟩
  have hcalls : ∀ (groups : List (List ResourceNotebookCellEdit)),
      ∀ call ∈ @groupsCalls CellEditT hasEditor groups, call.2 = [] := by
    intro groups call hmem
    unfold groupsCalls at hmem
    rw [List.mem_flatten] at hmem
    obtain ⟨l, hl, hcall⟩ := hmem
    rw [List.mem_map] at hl
    obtain ⟨g, _, rfl⟩ := hl
    unfold groupCalls at hcall
    rcases hh : g.head? with _ | first
    · rw [hh] at hcall; simp at hcall
    · rw [hh] at hcall
      by_cases he : hasEditor first.resource
      · simp only [he, if_true, List.mem_singleton] at hcall
        rw [hcall, convertToCellEdit_eq_nil]
      · simp [he] at hcall
  intro call hmem
  cases cancelAt with
  | none =>
      rw [bulkApply, bulkApplyLoop_nocancel] at hmem
      simp only [List.nil_append] at hmem
      exact hcalls _ call hmem
  | some k =>
      rw [bulkApply, (bulkApplyLoop_cancel hasEditor applyOne k _ 0 _).1] at hmem
      simp only [List.nil_append, Nat.sub_zero] at hmem
      exact hcalls _ call hmem

/-- Witness for C10 at a concrete input: a two-edit batch on an existing
notebook makes one `applyCellEdits` call, and it carries the empty list. -/
theorem convertToCellEdit_always_empty_witness :
    convertToCellEdit Unit [⟨CellEditType.Replace⟩, ⟨CellEditType.Move⟩] = []
    ∧ (("nb-0", ([] : List Unit)) ∈
        (bulkApply (fun _ => true) (fun (d : Unit) (_ : Unit) => d) (some 5)
          [⟨"nb-0", ⟨CellEditType.Replace⟩⟩, ⟨"nb-0", ⟨CellEditType.Move⟩⟩]
          { docs := fun _ => (), progressReports := 0, calls := [] }).calls
      → ("nb-0", ([] : List Unit)).2 = ([] : List Unit)) := by
  refine ⟨(convertToCellEdit_always_empty (fun _ => true)
      (fun (d : Unit) (_ : Unit) => d) (some 5)
      [⟨CellEditType.Replace⟩, ⟨CellEditType.Move⟩]
      [⟨"nb-0", ⟨CellEditType.Replace⟩⟩, ⟨"nb-0", ⟨CellEditType.Move⟩⟩]
      (fun _ => ()) 0).1, ?_⟩
  exact (convertToCellEdit_always_empty (fun _ => true)
      (fun (d : Unit) (_ : Unit) => d) (some 5)
      [⟨CellEditType.Replace⟩, ⟨CellEditType.Move⟩]
      [⟨"nb-0", ⟨CellEditType.Replace⟩⟩, ⟨"nb-0", ⟨CellEditType.Move⟩⟩]
      (fun _ => ()) 0).2 ("nb-0", ([] : List Unit))

/-! ### AdapterManager lemmas -/

/-- `mapGet` over a cons cell. -/
theorem mapGet_cons {V : Type} (a : String × V) (m : List (String × V)) (k' : String) :
    mapGet (a :: m) k' = if a.1 = k' then some a.2 else mapGet m k' := by
  unfold mapGet
  by_cases h : a.1 = k'
  · rw [List.find?_cons_of_pos _ (by simpa using h)]
    simp [h]
  · rw [List.find?_cons_of_neg _ (by simpa using h)]
    simp [h]

/-- `mapGet` over an append: the left entries shadow the right ones. -/
theorem mapGet_append {V : Type} (m m2 : List (String × V)) (k' : String) :
    mapGet (m ++ m2) k'
      = match mapGet m k' with
        | some v => some v
        | none => mapGet m2 k' := by
  induction m with
  | nil => simp [mapGet]
  | cons a m ih =>
      rw [List.cons_append, mapGet_cons, mapGet_cons]
      by_cases h : a.1 = k' <;> simp [h, ih]

/-- A key absent from the map looks up as `none`. -/
theorem mapGet_eq_none_of_not_any {V : Type} (m : List (String × V)) (k : String)
    (h : ¬ m.any (fun p => p.1 = k)) : mapGet m k = none := by
  induction m with
  | nil => rfl
  | cons a m ih =>
      rw [List.any_cons] at h
      rw [mapGet_cons]
      by_cases ha : a.1 = k
      · exact absurd (by simp [ha]) h
      · rw [if_neg ha]
        exact ih (fun hm => h (by simp [hm]))

/-- Overwriting the entries with key `k` looks up as expected. -/
theorem mapGet_overwrite {V : Type} (m : List (String × V)) (k k' : String) (v : V) :
    mapGet (m.map (fun p => if p.1 = k then (k, v) else p)) k'
      = if k' = k then (if m.any (fun p => p.1 = k) then some v else none)
        else mapGet m k' := by
  induction m with
  | nil => by_cases h : k' = k <;> simp [mapGet, h]
  | cons a m ih =>
      rw [List.map_cons, mapGet_cons, mapGet_cons, List.any_cons]
      by_cases ha : a.1 = k
      · rw [if_pos ha]
        by_cases hk : k' = k
        · subst hk
          simp [ha, ih]
        · have hkk : ¬ ((k, v).1 = k') := fun h => hk h.symm
          have hak : ¬ (a.1 = k') := fun h => hk (ha ▸ h).symm
          simp only [hkk, if_false, hak, ih, hk]
      · rw [if_neg ha]
        by_cases hak : a.1 = k'
        · have hk : ¬ (k' = k) := fun h => ha (h ▸ hak)
          simp [hak, hk]
        · by_cases hk : k' = k
          · subst hk
            simp only [hak, if_false, ih, if_pos rfl, List.any_cons,
              decide_eq_true_eq, ha, Bool.false_or, decide_False]
          · simp [hak, ih, hk]


/-- JS `Map.set` followed by `Map.get`. -/
theorem mapGet_mapSet {V : Type} (m : List (String × V)) (k k' : String) (v : V) :
    mapGet (mapSet m k v) k' = if k' = k then some v else mapGet m k' := by
  unfold mapSet
  by_cases hmem : m.any (fun p => p.1 = k)
  · rw [if_pos hmem, mapGet_overwrite, hmem]
    by_cases hk : k' = k <;> simp [hk]
  · rw [if_neg hmem, mapGet_append]
    by_cases hk : k' = k
    · subst hk
      rw [mapGet_eq_none_of_not_any m k' hmem]
      simp [mapGet_cons, mapGet]
    · have hkk : ¬ (k = k') := fun h => hk h.symm
      have hsingle : mapGet [(k, v)] k' = none := by
        rw [mapGet_cons]
        simp [mapGet, hkk]
      rw [hsingle, if_neg hk]
      cases mapGet m k' <;> simp

/-- Looking up any of the registered types after
`registerDebugAdapterFactory` finds the registered factory. -/
theorem mapGet_register {Adapter : Type} (mgr : AdapterManager Adapter)
    (debugTypes : List String) (f : DebugAdapterFactory Adapter) (ty : String) :
    mapGet (mgr.registerDebugAdapterFactory debugTypes f).debugAdapterFactories ty
      = if ty ∈ debugTypes then some f else mapGet mgr.debugAdapterFactories ty := by
  unfold AdapterManager.registerDebugAdapterFactory
  suffices h : ∀ (ts : List String) (m0 : List (String × DebugAdapterFactory Adapter)),
      mapGet (ts.foldl (fun m t => mapSet m t f) m0) ty
        = if ty ∈ ts then some f else mapGet m0 ty by
    exact h debugTypes mgr.debugAdapterFactories
  intro ts
  induction ts with
  | nil => intro m0; simp
  | cons t ts ih =>
      intro m0
      rw [List.foldl_cons, ih, mapGet_mapSet]
      by_cases h1 : ty ∈ ts
      · simp [h1]
      · by_cases h2 : ty = t <;> simp [h1, h2]

/-- C9: `createDebugAdapter` returns `undefined` — with no error raised —
exactly when no debug adapter factory is registered for the session's
configuration type; when one is registered (in particular after
`registerDebugAdapterFactory` for that type) it is used to create the
adapter. -/
theorem createDebugAdapter_factory_lookup {Adapter : Type} :
    (∀ (mgr : AdapterManager Adapter) (session : DebugSession),
        mapGet mgr.debugAdapterFactories session.configuration.type = none →
        mgr.createDebugAdapter session = none)
    ∧ (∀ (mgr : AdapterManager Adapter) (session : DebugSession)
          (f : DebugAdapterFactory Adapter),
        mapGet mgr.debugAdapterFactories session.configuration.type = some f →
        mgr.createDebugAdapter session = some (f.createDebugAdapter session))
    ∧ (∀ (mgr : AdapterManager Adapter) (debugTypes : List String)
          (f : DebugAdapterFactory Adapter) (session : DebugSession),
        session.configuration.type ∈ debugTypes →
        (mgr.registerDebugAdapterFactory debugTypes f).createDebugAdapter session
          = some (f.createDebugAdapter session)) := by
  refine ⟨?_, ?_, ?_⟩
  · intro mgr session h
    unfold AdapterManager.createDebugAdapter
    rw [h]
  · intro mgr session f h
    unfold AdapterManager.createDebugAdapter
    rw [h]
  · intro mgr debugTypes f session hmem
    unfold AdapterManager.createDebugAdapter
    rw [mapGet_register, if_pos hmem]

/-- Witness for C9 at concrete inputs: on an empty registry the lookup for
type `t` yields `none`; after registering a factory for `t`, the session of
type `t` gets that factory's adapter. -/
theorem createDebugAdapter_factory_lookup_witness :
    (AdapterManager.createDebugAdapter
        { debugAdapterFactories := ([] : List (String × DebugAdapterFactory Nat)) }
        ⟨⟨"t"⟩⟩ = none)
    ∧ ((AdapterManager.registerDebugAdapterFactory
          { debugAdapterFactories := ([] : List (String × DebugAdapterFactory Nat)) }
          ["t"] ⟨fun _ => 7⟩).createDebugAdapter ⟨⟨"t"⟩⟩
        = some 7) := by
  constructor
  · exact (@createDebugAdapter_factory_lookup Nat).1
      { debugAdapterFactories := [] } ⟨⟨"t"⟩⟩ rfl
  · exact (@createDebugAdapter_factory_lookup Nat).2.2
      { debugAdapterFactories := [] } ["t"] ⟨fun _ => 7⟩ ⟨⟨"t"⟩⟩
      (List.mem_singleton.mpr rfl)

/-! ### Undo (C7) and silent no-op guards (C8) -/

/-- C7: every applied batch registers exactly one undo-stack entry, and
undoing right after a batch whose before-Selection-State is the current one
(as every call site passes `getFocus()`/`getSelections()`) restores the
document cells and the Selection State to exactly the pre-batch snapshot; in
particular this holds for `insertCellAtIndex`, which passes the current
focus/selections as the before state. -/
theorem applyEdits_single_undo_entry :
    (∀ (st : NotebookState) (edits : List EditOp) (beforeSel endSel : SelectionState),
        (st.applyEdits edits beforeSel endSel true).undoStack.length
          = st.undoStack.length + 1)
    ∧ (∀ (st : NotebookState) (edits : List EditOp) (endSel : SelectionState),
        (st.applyEdits edits st.selectionState endSel true).undo = st)
    ∧ (∀ (vm : NotebookState) (index : Nat) (source : List Char) (language : String)
          (type : CellKind) (metadata : Option CellMetadata) (outputs : List OutputDto),
        (insertCellAtIndex vm index source language type metadata outputs true).1.undoStack.length
            = vm.undoStack.length + 1
        ∧ (insertCellAtIndex vm index source language type metadata outputs true).1.undo = vm) := by
  refine ⟨fun st edits beforeSel endSel => rfl, fun st edits endSel => rfl,
    fun vm index source language type metadata outputs => ⟨rfl, rfl⟩⟩

/-- C8: `changeCellToKind`, `moveCellRange`, `copyCellRange`,
`joinNotebookCells` and `insertCell` all return without effect — silently,
raising nothing — when the host document is read-only or absent: the editor
(and so the document) is returned unchanged, `joinNotebookCells` produces no
edits, and `insertCell` produces no cell.  (`joinNotebookCells` and
`insertCell` are typed against active editors, so only the read-only guard
exists for them in the source.) -/
theorem readonly_or_absent_silently_noop :
    (∀ (kind : CellKind) (context : NotebookActionContext)
        (language : Option String) (mime : Option String),
        context.notebookEditor.hasModel = false ∨ context.notebookEditor.isReadOnly = true →
        changeCellToKind kind context language mime = context.notebookEditor)
    ∧ (∀ (expand : NotebookEditor → List ICellRange → List ICellRange)
          (context : NotebookActionContext) (direction : UpDownDirection),
        context.notebookEditor.hasModel = false ∨ context.notebookEditor.isReadOnly = true →
        moveCellRange expand context direction = context.notebookEditor)
    ∧ (∀ (expand : NotebookEditor → List ICellRange → List ICellRange)
          (context : NotebookActionContext) (direction : UpDownDirection),
        context.notebookEditor.hasModel = false ∨ context.notebookEditor.isReadOnly = true →
        copyCellRange expand context direction = context.notebookEditor)
    ∧ (∀ (ed : NotebookEditor) (range : ICellRange) (direction : VerticalDirection)
          (constraint : Option CellKind),
        ed.isReadOnly = true →
        joinNotebookCells ed range direction constraint = none)
    ∧ (∀ (registeredModes : List String) (getNextVisibleCellIndex : Nat → Nat)
          (nearestCodeCellIndex : Nat → Int) (ed : NotebookEditor) (index : Nat)
          (type : CellKind) (direction : VerticalDirection)
          (initialText : List Char) (ui : Bool),
        ed.isReadOnly = true →
        insertCell registeredModes getNextVisibleCellIndex nearestCodeCellIndex
          ed index type direction initialText ui = (ed, none)) := by
  refine ⟨?_, ?_, ?_, ?_, ?_⟩
  · intro kind context language mime h
    unfold changeCellToKind
    rcases h with h | h
    · simp [h]
    · cases hm : context.notebookEditor.hasModel <;> simp [hm, h]
  · intro expand context direction h
    unfold moveCellRange
    rcases h with h | h
    · simp [h]
    · cases hm : context.notebookEditor.hasModel <;> simp [hm, h]
  · intro expand context direction h
    unfold copyCellRange
    rcases h with h | h
    · simp [h]
    · cases hm : context.notebookEditor.hasModel <;> simp [hm, h]
  · intro ed range direction constraint h
    unfold joinNotebookCells
    rw [h]
    rfl
  · intro registeredModes getNextVisibleCellIndex nearestCodeCellIndex ed index type
      direction initialText ui h
    unfold insertCell
    rw [h]
    rfl

/-- Witness for C8 at concrete inputs: on a read-only editor every operation
is the identity on the editor, and on an editor without a model the
context-based operations are as well. -/
theorem readonly_or_absent_silently_noop_witness :
    changeCellToKind CellKind.markup
        { notebookEditor := edReadOnlyW, ui := true, cell := some cellW1,
          selectedCells := none } none none = edReadOnlyW
    ∧ changeCellToKind CellKind.markup
        { notebookEditor := edNoModelW, ui := true, cell := some cellW1,
          selectedCells := none } none none = edNoModelW
    ∧ moveCellRange (fun _ rs => rs)
        { notebookEditor := edReadOnlyW, ui := false, cell := none,
          selectedCells := none } UpDownDirection.down = edReadOnlyW
    ∧ copyCellRange (fun _ rs => rs)
        { notebookEditor := edReadOnlyW, ui := false, cell := none,
          selectedCells := none } UpDownDirection.down = edReadOnlyW
    ∧ joinNotebookCells edReadOnlyW ⟨0, 1⟩ VerticalDirection.below none = none
    ∧ insertCell [] (fun i => i + 1) (fun _ => -1) edReadOnlyW 0 CellKind.code
        VerticalDirection.above [] false = (edReadOnlyW, none) := by
  refine ⟨?_, ?_, ?_, ?_, ?_, ?_⟩
  · exact readonly_or_absent_silently_noop.1 CellKind.markup
      { notebookEditor := edReadOnlyW, ui := true, cell := some cellW1,
        selectedCells := none } none none (Or.inr rfl)
  · exact readonly_or_absent_silently_noop.1 CellKind.markup
      { notebookEditor := edNoModelW, ui := true, cell := some cellW1,
        selectedCells := none } none none (Or.inl rfl)
  · exact readonly_or_absent_silently_noop.2.1 (fun _ rs => rs)
      { notebookEditor := edReadOnlyW, ui := false, cell := none,
        selectedCells := none } UpDownDirection.down (Or.inr rfl)
  · exact readonly_or_absent_silently_noop.2.2.1 (fun _ rs => rs)
      { notebookEditor := edReadOnlyW, ui := false, cell := none,
        selectedCells := none } UpDownDirection.down (Or.inr rfl)
  · exact readonly_or_absent_silently_noop.2.2.2.1 edReadOnlyW ⟨0, 1⟩
      VerticalDirection.below none rfl
  · exact readonly_or_absent_silently_noop.2.2.2.2 [] (fun i => i + 1) (fun _ => -1)
      edReadOnlyW 0 CellKind.code VerticalDirection.above [] false rfl

/-! ### The cell-count invariant (C1) -/

/-- A cell index strictly inside the document resolves to a cell. -/
theorem cellAt_isSome (ed : NotebookEditor) (i : Nat)
    (hi : i < ed.model.cells.length) : ∃ c, ed.cellAt i = some c := by
  cases hc : ed.cellAt i with
  | none =>
      exfalso
      unfold NotebookEditor.cellAt at hc
      have := List.get?_eq_none.mp hc
      omega
  | some c => exact ⟨c, rfl⟩

/-- An in-range edit removes at most the whole document. -/
theorem removedCount_le {n : Nat} {e : EditOp} (h : opValid n e) : removedCount e ≤ n := by
  cases e with
  | replace index count cells =>
      unfold opValid at h; simp only [removedCount]; omega
  | move index length newIdx =>
      unfold opValid at h; simp only [removedCount]; omega

/-- One in-range edit operation changes the cell count by
`inserted - removed`. -/
theorem length_applyOp (cells : List Cell) (e : EditOp) (h : opValid cells.length e) :
    (applyOp cells e).length = cells.length - removedCount e + insertedCount e := by
  cases e with
  | replace index count newCells =>
      unfold opValid at h
      unfold applyOp removedCount insertedCount
      simp only [List.length_append, List.length_take, List.length_drop]
      omega
  | move index length newIdx =>
      unfold opValid at h
      unfold applyOp removedCount insertedCount
      simp only [List.length_append, List.length_take, List.length_drop]
      omega

/-- Over an in-range batch, final count plus total removed equals original
count plus total inserted. -/
theorem length_applyOps (cells : List Cell) (edits : List EditOp)
    (h : opsValid cells.length edits) :
    (applyOps cells edits).length + (edits.map removedCount).sum
      = cells.length + (edits.map insertedCount).sum := by
  induction edits generalizing cells with
  | nil => simp [applyOps]
  | cons e es ih =>
      obtain ⟨h1, h2⟩ := h
      have hlen := length_applyOp cells e h1
      have hle := removedCount_le h1
      have hstep : applyOps cells (e :: es) = applyOps (applyOp cells e) es := rfl
      rw [hstep]
      have ih' := ih (applyOp cells e) (by rw [hlen]; exact h2)
      simp only [List.map_cons, List.sum_cons]
      omega

/-- The containing-branch end state with no surviving next cell is always
within the new bounds. -/
theorem deleteContainingEndSel_none_within (newCells : List Cell) :
    selectionStateWithin (deleteContainingEndSel newCells none) newCells.length := by
  unfold deleteContainingEndSel
  by_cases h : newCells.length ≠ 0
  · rw [if_pos h]
    unfold selectionStateWithin rangeWithin
    constructor
    · constructor <;> simp <;> omega
    · intro r hr
      simp only [List.mem_singleton] at hr
      subst hr
      constructor <;> simp <;> omega
  · rw [if_neg h]
    unfold selectionStateWithin rangeWithin
    constructor
    · constructor <;> simp
    · intro r hr
      simp only [List.mem_singleton] at hr
      subst hr
      constructor <;> simp


/-- The containing-branch end state focused on a cell that survived the
deletion is within the new bounds. -/
theorem deleteContainingEndSel_some_within (newCells : List Cell) (c : Cell)
    (h : c ∈ newCells) :
    selectionStateWithin (deleteContainingEndSel newCells (some c)) newCells.length := by
  have hidx : newCells.findIdx (fun x => decide (x = c)) < newCells.length :=
    List.findIdx_lt_length_of_exists ⟨c, h, by simp⟩
  unfold deleteContainingEndSel
  unfold selectionStateWithin rangeWithin
  constructor
  · constructor <;> simp <;> omega
  · intro r hr
    simp only [List.mem_singleton] at hr
    subst hr
    constructor <;> simp <;> omega

/-- The shifted selections of the no-containing-selection branch of
`runDeleteAction` stay within the shrunk document. -/
theorem deleteFinalSelections_within (selections : List ICellRange) (t n : Nat)
    (htn : t < n)
    (hnone : ∀ r ∈ selections, ¬ (r.start ≤ t ∧ t < r.«end»))
    (hwf : ∀ r ∈ selections, r.start ≤ r.«end» ∧ r.«end» ≤ n) :
    ∀ r ∈ deleteFinalSelections selections t, rangeWithin r (n - 1) := by
  intro r hr
  unfold deleteFinalSelections at hr
  rw [List.mem_map] at hr
  obtain ⟨s, hs, hsr⟩ := hr
  obtain ⟨hwf1, hwf2⟩ := hwf s hs
  have hnc := hnone s hs
  subst hsr
  unfold rangeWithin
  by_cases h1 : s.«end» ≤ t
  · rw [if_pos h1]
    exact ⟨by omega, by omega⟩
  · rw [if_neg h1]
    by_cases h2 : t < s.start
    · rw [if_pos h2]
      dsimp only
      exact ⟨by omega, by omega⟩
    · exfalso
      exact hnc ⟨by omega, by omega⟩

/-- C1 (amended): for every batch of Edit Operations each of which is in
range at its application point, the post-apply cell count equals
`originalCount - sum(removed) + sum(inserted)`; and the end Selection States
submitted by the cited callers on in-range inputs lie within `[0, newCount]`:
`insertCellAtIndex` at an index within the document, and `runDeleteAction`
both when a single in-document selection contains the target cell and when
no selection contains a target cell that is in the document, the focus is a
single in-document cell and the selections are well-formed. -/
theorem cell_count_invariant :
    (∀ (cells : List Cell) (edits : List EditOp), opsValid cells.length edits →
        ((applyOps cells edits).length : Int)
          = (cells.length : Int) - ((edits.map removedCount).sum : Int)
            + ((edits.map insertedCount).sum : Int))
    ∧ (∀ (vm : NotebookState) (index : Nat) (source : List Char) (language : String)
          (type : CellKind) (metadata : Option CellMetadata) (outputs : List OutputDto)
          (pushUndoStop : Bool),
        index ≤ vm.cells.length →
        selectionStateWithin
          (insertCellAtIndex vm index source language type metadata outputs pushUndoStop).1.selectionState
          (insertCellAtIndex vm index source language type metadata outputs pushUndoStop).1.cells.length)
    ∧ (∀ (ed : NotebookEditor) (cell : Cell) (sel : ICellRange),
        ed.getSelections = [sel] →
        sel.«end» ≤ ed.model.cells.length →
        sel.start ≤ ed.getCellIndex cell →
        ed.getCellIndex cell < sel.«end» →
        selectionStateWithin (runDeleteAction ed cell).model.selectionState
          (runDeleteAction ed cell).model.cells.length)
    ∧ (∀ (ed : NotebookEditor) (cell : Cell),
        (∀ r ∈ ed.getSelections,
            ¬ (r.start ≤ ed.getCellIndex cell ∧ ed.getCellIndex cell < r.«end»)) →
        ed.getCellIndex cell < ed.model.cells.length →
        ed.getFocus.«end» = ed.getFocus.start + 1 →
        ed.getFocus.«end» ≤ ed.model.cells.length →
        (∀ r ∈ ed.getSelections, r.start ≤ r.«end» ∧ r.«end» ≤ ed.model.cells.length) →
        selectionStateWithin (runDeleteAction ed cell).model.selectionState
          (runDeleteAction ed cell).model.cells.length) := by
  refine ⟨?_, ?_, ?_, ?_⟩
  · intro cells edits h
    have := length_applyOps cells edits h
    omega
  · intro vm index source language type metadata outputs pushUndoStop hidx
    have hgen : ∀ c : Cell, (applyOps vm.cells [.replace index 0 [c]]).length
        = vm.cells.length + 1 := by
      intro c
      have hvalid : opValid vm.cells.length (.replace index 0 [c]) := by
        unfold opValid; omega
      have hlen := length_applyOp vm.cells (.replace index 0 [c]) hvalid
      simp only [removedCount, insertedCount, List.length_singleton] at hlen
      have hfold : applyOps vm.cells [EditOp.replace index 0 [c]]
          = applyOp vm.cells (EditOp.replace index 0 [c]) := rfl
      rw [hfold, hlen]
      omega
    simp only [insertCellAtIndex, NotebookState.applyEdits]
    rw [hgen]
    unfold selectionStateWithin rangeWithin
    constructor
    · constructor <;> simp <;> omega
    · intro r hr
      simp only [List.mem_singleton] at hr
      subst hr
      constructor <;> simp <;> omega
  · -- runDeleteAction, containing-selection branch with a single selection
    intro ed cell sel hsel hselend hst hte
    have hfind : List.find? (fun selection =>
        decide (selection.start ≤ ed.getCellIndex cell)
          && decide (ed.getCellIndex cell < selection.«end»)) [sel] = some sel :=
      List.find?_cons_of_pos _ (by simp [hst, hte])
    have hse : sel.start ≤ sel.«end» := by omega
    have happ : applyOps ed.model.cells
        [EditOp.replace sel.start (sel.«end» - sel.start) []]
        = ed.model.cells.take sel.start ++ ed.model.cells.drop sel.«end» := by
      have hBA : sel.start + (sel.«end» - sel.start) = sel.«end» := by omega
      show ed.model.cells.take sel.start ++ []
          ++ ed.model.cells.drop (sel.start + (sel.«end» - sel.start))
          = ed.model.cells.take sel.start ++ ed.model.cells.drop sel.«end»
      rw [hBA]
      simp
    unfold runDeleteAction
    simp only [hfind, hsel, List.reverse_singleton, List.map_cons, List.map_nil,
      NotebookState.applyEdits]
    by_cases hend : ed.getLength ≤ sel.«end»
    · rw [if_pos hend]
      exact deleteContainingEndSel_none_within _
    · have hlt : sel.«end» < ed.model.cells.length := by
        unfold NotebookEditor.getLength at hend
        omega
      obtain ⟨c, hc⟩ := cellAt_isSome ed sel.«end» hlt
      rw [if_neg hend, hc]
      refine deleteContainingEndSel_some_within _ c ?_
      rw [happ]
      refine List.mem_append.mpr (Or.inr ?_)
      have hdrop : (ed.model.cells.drop sel.«end»)[0]? = some c := by
        rw [List.getElem?_drop]
        unfold NotebookEditor.cellAt at hc
        rw [List.get?_eq_getElem?] at hc
        simpa using hc
      exact List.getElem?_mem hdrop
  · -- runDeleteAction, no containing selection
    intro ed cell hnone htlen hfocus1 hfocusend hwf
    have hfind : (ed.getSelections).find? (fun selection =>
        decide (selection.start ≤ ed.getCellIndex cell)
          && decide (ed.getCellIndex cell < selection.«end»)) = none := by
      rw [List.find?_eq_none]
      intro x hx
      simp only [Bool.and_eq_true, decide_eq_true_eq]
      exact fun hh => hnone x hx hh
    have hcount : (applyOps ed.model.cells
        [EditOp.replace (ed.getCellIndex cell) 1 []]).length
        = ed.model.cells.length - 1 := by
      have hvalid : opValid ed.model.cells.length
          (.replace (ed.getCellIndex cell) 1 []) := by
        unfold opValid
        omega
      have hlen := length_applyOp ed.model.cells
        (.replace (ed.getCellIndex cell) 1 []) hvalid
      simp only [removedCount, insertedCount, List.length_nil] at hlen
      have hfold : applyOps ed.model.cells [EditOp.replace (ed.getCellIndex cell) 1 []]
          = applyOp ed.model.cells (EditOp.replace (ed.getCellIndex cell) 1 []) := rfl
      rw [hfold, hlen]
      omega
    have hsels : ∀ r ∈ deleteFinalSelections ed.getSelections (ed.getCellIndex cell),
        rangeWithin r (ed.model.cells.length - 1) :=
      deleteFinalSelections_within ed.getSelections (ed.getCellIndex cell)
        ed.model.cells.length htlen hnone hwf
    unfold runDeleteAction
    simp only [hfind, NotebookState.applyEdits]
    by_cases hfcell : ed.cellAt ed.getFocus.start = some cell
    · rw [if_pos hfcell]
      by_cases hfe : ed.getFocus.«end» = ed.model.cells.length
      · rw [if_pos hfe]
        unfold selectionStateWithin
        refine ⟨?_, ?_⟩
        · show rangeWithin ⟨ed.getFocus.start - 1, ed.getFocus.«end» - 1⟩ _
          rw [hcount]
          unfold rangeWithin
          constructor <;> simp <;> omega
        · intro r hr
          rw [hcount]
          exact hsels r hr
      · rw [if_neg hfe]
        unfold selectionStateWithin
        refine ⟨?_, ?_⟩
        · show rangeWithin ed.getFocus _
          rw [hcount]
          unfold rangeWithin
          constructor <;> omega
        · intro r hr
          rw [hcount]
          exact hsels r hr
    · rw [if_neg hfcell]
      by_cases hlt : ed.getCellIndex cell < ed.getFocus.start
      · rw [if_pos hlt]
        unfold selectionStateWithin
        refine ⟨?_, ?_⟩
        · show rangeWithin ⟨ed.getFocus.start - 1, ed.getFocus.«end» - 1⟩ _
          rw [hcount]
          unfold rangeWithin
          constructor <;> simp <;> omega
        · intro r hr
          rw [hcount]
          exact hsels r hr
      · have hke : ed.getFocus.«end» < ed.model.cells.length := by
          by_contra hcon
          have hend : ed.getFocus.«end» = ed.model.cells.length := by omega
          have hstart : ed.getFocus.start = ed.getCellIndex cell := by omega
          have hmem : cell ∈ ed.model.cells := by
            refine List.indexOf_lt_length.mp ?_
            unfold NotebookEditor.getCellIndex at htlen
            exact htlen
          apply hfcell
          unfold NotebookEditor.cellAt
          rw [hstart]
          unfold NotebookEditor.getCellIndex
          exact List.indexOf_get? hmem
        rw [if_neg hlt]
        unfold selectionStateWithin
        refine ⟨?_, ?_⟩
        · show rangeWithin ed.getFocus _
          rw [hcount]
          unfold rangeWithin
          constructor <;> omega
        · intro r hr
          rw [hcount]
          exact hsels r hr

/-- C1 counterexample: both clauses of the claim fail on out-of-range
material, which the code neither rejects nor clamps (the spec's §9 latent
gap).  A Replace deleting 3 cells at index 5 of a 2-cell document leaves 2
cells, not `2 - 3 + 0`; and the batch submitted by the caller
`insertCellAtIndex` at index 5 of the three-cell document installs focus and
selection `[5, 6)` although the new cell count is 4. -/
theorem cell_count_invariant_counterexample :
    (¬ (((applyOps [cellW1, cellW2] [.replace 5 3 []]).length : Int)
        = (([cellW1, cellW2] : List Cell).length : Int)
          - ((([EditOp.replace 5 3 []] : List EditOp).map removedCount).sum : Int)
          + ((([EditOp.replace 5 3 []] : List EditOp).map insertedCount).sum : Int)))
    ∧ ¬ selectionStateWithin
        (insertCellAtIndex stThreeW 5 ['x'] "python" CellKind.code none [] true).1.selectionState
        (insertCellAtIndex stThreeW 5 ['x'] "python" CellKind.code none [] true).1.cells.length := by
  constructor <;> decide

/-- Witness for C1 at concrete inputs: an in-range batch (replace one cell by
none, then move nothing) obeys the arithmetic; an insertion at index 1 of the
three-cell document leaves focus and selections within the new count; and so
do deleting the selected first cell (containing-selection branch) and
deleting the unselected first cell (no-containing-selection branch). -/
theorem cell_count_invariant_witness :
    (opsValid ([cellW1, cellW2] : List Cell).length [.replace 0 1 [], .move 0 1 0]
      ∧ ((applyOps [cellW1, cellW2] [.replace 0 1 [], .move 0 1 0]).length : Int)
          = (([cellW1, cellW2] : List Cell).length : Int)
            - ((([EditOp.replace 0 1 [], EditOp.move 0 1 0] : List EditOp).map removedCount).sum : Int)
            + ((([EditOp.replace 0 1 [], EditOp.move 0 1 0] : List EditOp).map insertedCount).sum : Int))
    ∧ (1 ≤ stThreeW.cells.length
      ∧ selectionStateWithin
          (insertCellAtIndex stThreeW 1 ['x'] "python" CellKind.code none [] true).1.selectionState
          (insertCellAtIndex stThreeW 1 ['x'] "python" CellKind.code none [] true).1.cells.length)
    ∧ (edThreeW.getSelections = [⟨0, 1⟩]
      ∧ (⟨0, 1⟩ : ICellRange).«end» ≤ edThreeW.model.cells.length
      ∧ (⟨0, 1⟩ : ICellRange).start ≤ edThreeW.getCellIndex cellW1
      ∧ edThreeW.getCellIndex cellW1 < (⟨0, 1⟩ : ICellRange).«end»
      ∧ selectionStateWithin (runDeleteAction edThreeW cellW1).model.selectionState
          (runDeleteAction edThreeW cellW1).model.cells.length)
    ∧ ((∀ r ∈ edDeleteW.getSelections,
          ¬ (r.start ≤ edDeleteW.getCellIndex cellW1
              ∧ edDeleteW.getCellIndex cellW1 < r.«end»))
      ∧ edDeleteW.getCellIndex cellW1 < edDeleteW.model.cells.length
      ∧ edDeleteW.getFocus.«end» = edDeleteW.getFocus.start + 1
      ∧ edDeleteW.getFocus.«end» ≤ edDeleteW.model.cells.length
      ∧ (∀ r ∈ edDeleteW.getSelections,
          r.start ≤ r.«end» ∧ r.«end» ≤ edDeleteW.model.cells.length)
      ∧ selectionStateWithin (runDeleteAction edDeleteW cellW1).model.selectionState
          (runDeleteAction edDeleteW cellW1).model.cells.length) := by
  refine ⟨⟨by decide, ?_⟩, ⟨by decide, ?_⟩,
    ⟨by decide, by decide, by decide, by decide, ?_⟩,
    ⟨by decide, by decide, by decide, by decide, by decide, ?_⟩⟩
  · exact cell_count_invariant.1 [cellW1, cellW2] [.replace 0 1 [], .move 0 1 0] (by decide)
  · exact cell_count_invariant.2.1 stThreeW 1 ['x'] "python" CellKind.code none [] true
      (by decide)
  · exact cell_count_invariant.2.2.1 edThreeW cellW1 ⟨0, 1⟩ (by decide) (by decide)
      (by decide) (by decide)
  · exact cell_count_invariant.2.2.2 edDeleteW cellW1 (by decide) (by decide) (by decide)
      (by decide) (by decide)

/-! ### Move semantics (C5) -/

/-- C5: for a Move whose source range lies in the document and whose target
index `newIdx` is expressed in the post-removal index space (`newIdx`
positions at most `length` short of the document end), `moveCellToIdx`
succeeds and relocates exactly the specified contiguous range: the cell count
is unchanged, the `j`-th moved cell lands at `newIdx + j`, and deleting the
relocated block recovers the other cells in their original relative order.
`newIdx` is used literally — the applier performs no adjustment on it. -/
theorem moveCellToIdx_relocates (ed : NotebookEditor) (index length newIdx : Nat)
    (hcell : index < ed.model.cells.length)
    (hrange : index + length ≤ ed.model.cells.length)
    (htarget : newIdx + length ≤ ed.model.cells.length) :
    (moveCellToIdx ed index length newIdx).2 = true
    ∧ (moveCellToIdx ed index length newIdx).1.model.cells.length
        = ed.model.cells.length
    ∧ (∀ j, j < length →
        (moveCellToIdx ed index length newIdx).1.model.cells.get? (newIdx + j)
          = ed.model.cells.get? (index + j))
    ∧ (moveCellToIdx ed index length newIdx).1.model.cells.take newIdx
        ++ (moveCellToIdx ed index length newIdx).1.model.cells.drop (newIdx + length)
      = ed.model.cells.take index ++ ed.model.cells.drop (index + length) := by
  rcases hc : ed.cellAt index with _ | c
  case none =>
    exfalso
    unfold NotebookEditor.cellAt at hc
    have hlen := List.get?_eq_none.mp hc
    omega
  case some =>
  have hflag : (moveCellToIdx ed index length newIdx).2 = true := by
    unfold moveCellToIdx
    simp only [hc]
  set cells := ed.model.cells with hcells
  set moved := (cells.drop index).take length with hmoved
  set rest := cells.take index ++ cells.drop (index + length) with hrest
  have hcellsres : (moveCellToIdx ed index length newIdx).1.model.cells
      = rest.take newIdx ++ moved ++ rest.drop newIdx := by
    unfold moveCellToIdx
    simp only [hc]
    rfl
  have hmovedlen : moved.length = length := by
    rw [hmoved]
    simp only [List.length_take, List.length_drop]
    omega
  have hrestlen : rest.length = cells.length - length := by
    rw [hrest]
    simp only [List.length_append, List.length_take, List.length_drop]
    omega
  have htakelen : (rest.take newIdx).length = newIdx := by
    simp only [List.length_take]
    omega
  refine ⟨hflag, ?_, ?_, ?_⟩
  · rw [hcellsres]
    simp only [List.length_append, List.length_take, List.length_drop, hmovedlen, hrestlen]
    omega
  · intro j hj
    rw [hcellsres, List.append_assoc]
    rw [List.get?_eq_getElem?, List.get?_eq_getElem?]
    rw [List.getElem?_append_right (by omega : (rest.take newIdx).length ≤ newIdx + j)]
    rw [htakelen]
    have hjj : newIdx + j - newIdx = j := by omega
    rw [hjj]
    rw [List.getElem?_append_left (by omega : j < moved.length)]
    rw [hmoved, List.getElem?_take, if_pos hj, List.getElem?_drop]
  · rw [hcellsres]
    have h1 : (rest.take newIdx ++ moved ++ rest.drop newIdx).take newIdx
        = rest.take newIdx := by
      rw [List.append_assoc]
      exact List.take_left' htakelen
    have h2 : (rest.take newIdx ++ moved ++ rest.drop newIdx).drop (newIdx + length)
        = rest.drop newIdx := by
      refine List.drop_left' ?_
      simp only [List.length_append, htakelen, hmovedlen]
    rw [h1, h2, List.take_append_drop]

/-- Witness for C5 at a concrete input: moving the first cell of the
three-cell document to post-removal index 2 yields document `[W2, W3, W1]`
with the moved cell at position 2 and the others in order. -/
theorem moveCellToIdx_relocates_witness :
    0 < edThreeW.model.cells.length
    ∧ 0 + 1 ≤ edThreeW.model.cells.length
    ∧ 2 + 1 ≤ edThreeW.model.cells.length
    ∧ ((moveCellToIdx edThreeW 0 1 2).2 = true
      ∧ (moveCellToIdx edThreeW 0 1 2).1.model.cells.length
          = edThreeW.model.cells.length
      ∧ (∀ j, j < 1 →
          (moveCellToIdx edThreeW 0 1 2).1.model.cells.get? (2 + j)
            = edThreeW.model.cells.get? (0 + j))
      ∧ (moveCellToIdx edThreeW 0 1 2).1.model.cells.take 2
          ++ (moveCellToIdx edThreeW 0 1 2).1.model.cells.drop (2 + 1)
        = edThreeW.model.cells.take 0 ++ edThreeW.model.cells.drop (0 + 1)) :=
  ⟨by decide, by decide, by decide,
    moveCellToIdx_relocates edThreeW 0 1 2 (by decide) (by decide) (by decide)⟩

/-! ### joinNotebookCells rejection conditions (C4) -/

/-- The sliced range is non-empty exactly when the start is inside both the
document and the range. -/
theorem getCellsInRange_length (ed : NotebookEditor) (range : ICellRange) :
    (ed.getCellsInRange range).length
      = min (range.«end» - range.start) (ed.model.cells.length - range.start) := by
  unfold NotebookEditor.getCellsInRange
  simp [List.length_take, List.length_drop]

/-- C4 (amended): `joinNotebookCells` returns `null` — producing no edits —
exactly when the editor is read-only, or the requested range contains no
cells, or the range spans the document boundary in the requested direction
(join above with `start = 0`, join below with `end = length`), or a
cell-kind constraint is given and some cell of the range or the adjacent
joined cell has a different kind; for ranges with `end ≤ length` these are
the only rejections. -/
theorem joinNotebookCells_rejects_iff (ed : NotebookEditor) (range : ICellRange)
    (direction : VerticalDirection) (constraint : Option CellKind)
    (h : range.«end» ≤ ed.model.cells.length) :
    joinNotebookCells ed range direction constraint = none
      ↔ joinRejected ed range direction constraint = true := by
  unfold joinNotebookCells joinRejected
  cases hro : ed.isReadOnly
  case true => simp
  case false =>
  simp only [Bool.false_eq_true, if_false, Bool.false_or]
  by_cases hempty : (ed.getCellsInRange range).length = 0
  · simp [hempty]
  · have hbounds : range.start < ed.model.cells.length ∧ range.start < range.«end» := by
      rw [getCellsInRange_length] at hempty
      omega
    cases direction with
    | above =>
      simp only [decide_True, decide_False, Bool.and_true, Bool.and_false, Bool.or_false,
        hempty, if_false]
      by_cases hs0 : range.start = 0
      · simp [hs0]
      · obtain ⟨above, habove⟩ := cellAt_isSome ed (range.start - 1) (by omega)
        simp only [hs0, decide_False, Bool.false_or, if_false]
        by_cases hkv : kindViolated constraint (ed.getCellsInRange range)
        · simp [hkv]
        · simp only [hkv, if_false, Bool.false_eq_true, Bool.false_or, habove]
          by_cases hak : adjacentKindViolated constraint above
          · simp [hak]
          · simp [hak]
    | below =>
      simp only [decide_True, decide_False, Bool.and_true, Bool.and_false, Bool.or_false,
        Bool.false_or, hempty, if_false]
      by_cases he : range.«end» = ed.model.cells.length
      · simp [he]
      · obtain ⟨below, hbelow⟩ := cellAt_isSome ed range.«end» (by omega)
        simp only [he, decide_False, Bool.false_or, if_false]
        by_cases hkv : kindViolated constraint (ed.getCellsInRange range)
        · simp [hkv]
        · simp only [hkv, if_false, Bool.false_eq_true, Bool.false_or, hbelow]
          by_cases hak : adjacentKindViolated constraint below
          · simp [hak]
          · cases hcs : ed.getCellsInRange range with
            | nil => exact absurd (by rw [hcs]; rfl) hempty
            | cons c0 crest => simp [hak, hcs]

/-- C4 counterexample: on a writable three-cell editor, the empty range
`[1, 1)` joined above is rejected (`null`, no edits) although none of the
claim's conditions holds — the range does not touch the boundary in the
requested direction and no kind constraint is given. -/
theorem joinNotebookCells_rejects_iff_counterexample :
    joinNotebookCells edThreeW ⟨1, 1⟩ VerticalDirection.above none = none
    ∧ joinRejectedClaimed edThreeW ⟨1, 1⟩ VerticalDirection.above none = false
    ∧ edThreeW.isReadOnly = false := by
  decide

/-- Witness for C4 at a concrete input: joining the first cell above on the
writable three-cell editor is a boundary rejection, and the amended
equivalence applies. -/
theorem joinNotebookCells_rejects_iff_witness :
    (⟨0, 1⟩ : ICellRange).«end» ≤ edThreeW.model.cells.length
    ∧ (joinNotebookCells edThreeW ⟨0, 1⟩ VerticalDirection.above none = none
        ↔ joinRejected edThreeW ⟨0, 1⟩ VerticalDirection.above none = true) :=
  ⟨by decide,
    joinNotebookCells_rejects_iff edThreeW ⟨0, 1⟩ VerticalDirection.above none (by decide)⟩

/-! ### Split-point boundaries (C6) -/

/-- Positions that are `≤` and distinct are `<`. -/
theorem posLt_of_posLe_of_ne {a b : IPosition} (hle : posLe a b)
    (hne : ¬ (a.lineNumber = b.lineNumber ∧ a.column = b.column)) : posLt a b := by
  unfold posLe at hle
  unfold posLt
  omega

/-- Normalization preserves being inside the buffer. -/
theorem validPos_normalizePoint (tb : TextBuffer) (p : IPosition)
    (h : validPos tb p) : validPos tb (normalizePoint tb p) := by
  unfold normalizePoint
  by_cases hc : tb.getLineLength p.lineNumber + 1 = p.column ∧ p.column ≠ 1
      ∧ p.lineNumber < tb.getLineCount
  · rw [if_pos hc]
    unfold validPos at h ⊢
    dsimp only
    refine ⟨by omega, by omega, by omega, by omega⟩
  · rw [if_neg hc]
    exact h

/-- Normalization is monotone on positions inside the buffer. -/
theorem normalizePoint_mono (tb : TextBuffer) {p q : IPosition}
    (hp : validPos tb p) (hq : validPos tb q) (hpq : posLe p q) :
    posLe (normalizePoint tb p) (normalizePoint tb q) := by
  unfold validPos at hp hq
  unfold posLe at hpq
  rcases hpq with hlt | ⟨h1, h2⟩
  · unfold normalizePoint
    by_cases hcp : tb.getLineLength p.lineNumber + 1 = p.column ∧ p.column ≠ 1
        ∧ p.lineNumber < tb.getLineCount
    · by_cases hcq : tb.getLineLength q.lineNumber + 1 = q.column ∧ q.column ≠ 1
          ∧ q.lineNumber < tb.getLineCount
      · rw [if_pos hcp, if_pos hcq]; unfold posLe; dsimp only; omega
      · rw [if_pos hcp, if_neg hcq]; unfold posLe; dsimp only; omega
    · by_cases hcq : tb.getLineLength q.lineNumber + 1 = q.column ∧ q.column ≠ 1
          ∧ q.lineNumber < tb.getLineCount
      · rw [if_neg hcp, if_pos hcq]; unfold posLe; dsimp only; omega
      · rw [if_neg hcp, if_neg hcq]; unfold posLe; omega
  · unfold normalizePoint
    rw [h1] at hp ⊢
    by_cases hcp : tb.getLineLength q.lineNumber + 1 = p.column ∧ p.column ≠ 1
        ∧ q.lineNumber < tb.getLineCount
    · rw [if_pos hcp]
      have hqc : q.column = p.column := by omega
      have hcq : tb.getLineLength q.lineNumber + 1 = q.column ∧ q.column ≠ 1
          ∧ q.lineNumber < tb.getLineCount := by omega
      rw [if_pos hcq]
      unfold posLe
      dsimp only
      omega
    · rw [if_neg hcp]
      by_cases hcq : tb.getLineLength q.lineNumber + 1 = q.column ∧ q.column ≠ 1
          ∧ q.lineNumber < tb.getLineCount
      · rw [if_pos hcq]
        unfold posLe
        dsimp only
        omega
      · rw [if_neg hcq]
        unfold posLe
        omega

/-- `pushIfAbsent` either appends or skips an exact duplicate of the last
element. -/
theorem pushIfAbsent_spec (acc : List IPosition) (p : IPosition) :
    pushIfAbsent acc p = acc ++ [p]
    ∨ (acc.getLast? = some p ∧ pushIfAbsent acc p = acc) := by
  unfold pushIfAbsent
  cases hl : acc.getLast? with
  | none => left; rfl
  | some last =>
      by_cases hc : last.lineNumber = p.lineNumber ∧ last.column = p.column
      · right
        have hlp : last = p := by
          cases last; cases p
          simp only [IPosition.mk.injEq]
          exact ⟨hc.1, hc.2⟩
        constructor
        · rw [hlp]
        · dsimp only
          rw [if_pos hc]
      · left
        dsimp only
        rw [if_neg hc]

/-- Folding `pushIfAbsent` over a `posLe`-sorted list onto a strictly
increasing accumulator whose last element precedes the list yields a strictly
increasing list drawn from the accumulator and the list. -/
theorem foldl_pushIfAbsent_invariant :
    ∀ (ns acc : List IPosition),
      List.Pairwise posLe ns →
      List.Chain' posLt acc →
      (∀ a, acc.getLast? = some a → ∀ x ∈ ns, posLe a x) →
      List.Chain' posLt (ns.foldl pushIfAbsent acc)
      ∧ (∀ y ∈ ns.foldl pushIfAbsent acc, y ∈ acc ∨ y ∈ ns) := by
  intro ns
  induction ns with
  | nil =>
      intro acc _ hc _
      exact ⟨hc, fun y hy => Or.inl hy⟩
  | cons x ns ih =>
      intro acc hs hc hconn
      obtain ⟨hx, hns⟩ := List.pairwise_cons.mp hs
      have hstep : (x :: ns).foldl pushIfAbsent acc = ns.foldl pushIfAbsent (pushIfAbsent acc x) :=
        rfl
      rcases pushIfAbsent_spec acc x with hpush | ⟨hlast, hpush⟩
      · -- appended
        have hchain' : List.Chain' posLt (acc ++ [x]) := by
          rw [List.chain'_append]
          refine ⟨hc, List.chain'_singleton x, ?_⟩
          intro a ha y hy
          simp only [List.head?_cons, Option.mem_def, Option.some.injEq] at hy
          subst hy
          rw [Option.mem_def] at ha
          have hle := hconn a ha x (List.mem_cons_self x ns)
          refine posLt_of_posLe_of_ne hle ?_
          intro heq
          -- a duplicate of the last element would have been skipped, not appended
          have hskip : pushIfAbsent acc x = acc := by
            unfold pushIfAbsent
            rw [ha]
            dsimp only
            rw [if_pos heq]
          rw [hskip] at hpush
          have hlen := congrArg List.length hpush
          simp only [List.length_append, List.length_singleton] at hlen
          omega
        have hlast' : ∀ a, (pushIfAbsent acc x).getLast? = some a → ∀ z ∈ ns, posLe a z := by
          intro a ha z hz
          rw [hpush, List.getLast?_concat] at ha
          have hax : a = x := by injection ha with ha; exact ha.symm
          subst hax
          exact hx z hz
        obtain ⟨r1, r2⟩ := ih (pushIfAbsent acc x) hns (by rw [hpush]; exact hchain') hlast'
        rw [hstep]
        refine ⟨r1, fun y hy => ?_⟩
        rcases r2 y hy with hy' | hy'
        · rw [hpush] at hy'
          rcases List.mem_append.mp hy' with h | h
          · exact Or.inl h
          · simp only [List.mem_singleton] at h
            exact Or.inr (h ▸ List.mem_cons_self x ns)
        · exact Or.inr (List.mem_cons_of_mem x hy')
      · -- skipped duplicate
        have hlast' : ∀ a, (pushIfAbsent acc x).getLast? = some a → ∀ z ∈ ns, posLe a z := by
          intro a ha z hz
          rw [hpush] at ha
          rw [hlast] at ha
          have hax : a = x := by injection ha with ha; exact ha.symm
          subst hax
          exact hx z hz
        obtain ⟨r1, r2⟩ := ih (pushIfAbsent acc x) hns (by rw [hpush]; exact hc) hlast'
        rw [hstep]
        refine ⟨r1, fun y hy => ?_⟩
        rcases r2 y hy with hy' | hy'
        · exact Or.inl (hpush ▸ hy')
        · exact Or.inr (List.mem_cons_of_mem x hy')

/-- When every split point is inside the buffer and normalizes strictly
between the buffer start and the buffer end, the boundary list produced by
`_splitPointsToBoundaries` is strictly increasing and every boundary is
inside the buffer. -/
theorem splitPointsToBoundaries_spec (tb : TextBuffer) (sps : List IPosition)
    (hval : ∀ p ∈ sps, validPos tb p)
    (hint : ∀ p ∈ sps, posLt modelStart (normalizePoint tb p)
        ∧ posLt (normalizePoint tb p) (modelEnd tb)) :
    ∀ bs, splitPointsToBoundaries sps tb = some bs →
      List.Chain' posLt bs ∧ ∀ x ∈ bs, validPos tb x := by
  intro bs hbs
  unfold splitPointsToBoundaries at hbs
  simp only at hbs
  have hsortedPW : List.Pairwise posLe (List.insertionSort posLe sps) :=
    List.sorted_insertionSort posLe sps
  have hmemsorted : ∀ p ∈ List.insertionSort posLe sps, p ∈ sps := by
    intro p hp
    exact (List.perm_insertionSort posLe sps).mem_iff.mp hp
  have hnsPW : List.Pairwise posLe ((List.insertionSort posLe sps).map (normalizePoint tb)) := by
    rw [List.pairwise_map]
    refine List.Pairwise.imp_of_mem ?_ hsortedPW
    intro a b ha hb hab
    exact normalizePoint_mono tb (hval a (hmemsorted a ha)) (hval b (hmemsorted b hb)) hab
  have hfold : (List.insertionSort posLe sps).foldl
        (fun acc sp => pushIfAbsent acc (normalizePoint tb sp)) []
      = ((List.insertionSort posLe sps).map (normalizePoint tb)).foldl pushIfAbsent [] := by
    rw [List.foldl_map]
  rw [hfold] at hbs
  obtain ⟨hchain, hmem⟩ :=
    foldl_pushIfAbsent_invariant ((List.insertionSort posLe sps).map (normalizePoint tb)) []
      hnsPW List.chain'_nil
      (by intro a ha; exact absurd ha (by simp))
  by_cases hemp :
      (((List.insertionSort posLe sps).map (normalizePoint tb)).foldl pushIfAbsent []).isEmpty
  · rw [if_pos hemp] at hbs
    cases hbs
  · rw [if_neg hemp] at hbs
    have hbnne :
        ((List.insertionSort posLe sps).map (normalizePoint tb)).foldl pushIfAbsent [] ≠ [] := by
      intro h
      exact hemp (by rw [h]; rfl)
    have hmem' : ∀ y ∈ ((List.insertionSort posLe sps).map (normalizePoint tb)).foldl
          pushIfAbsent [],
        ∃ p ∈ sps, y = normalizePoint tb p := by
      intro y hy
      rcases hmem y hy with h | h
      · exact absurd h (by simp)
      · rw [List.mem_map] at h
        obtain ⟨p, hp, hpy⟩ := h
        exact ⟨p, hmemsorted p hp, hpy.symm⟩
    have hbs' : bs = modelStart ::
        (((List.insertionSort posLe sps).map (normalizePoint tb)).foldl pushIfAbsent []
          ++ [modelEnd tb]) := by
      injection hbs with h
      exact h.symm
    have hcnt : 1 ≤ tb.getLineCount := by
      obtain ⟨y, hy⟩ := List.exists_mem_of_ne_nil _ hbnne
      obtain ⟨p, hp, _⟩ := hmem' y hy
      have := hval p hp
      unfold validPos at this
      omega
    have hvalidStart : validPos tb modelStart := by
      unfold validPos modelStart
      dsimp only
      omega
    have hvalidEnd : validPos tb (modelEnd tb) := by
      unfold validPos modelEnd
      dsimp only
      omega
    generalize hbneq :
      ((List.insertionSort posLe sps).map (normalizePoint tb)).foldl pushIfAbsent [] = bn
        at hchain hmem' hbnne hbs'
    rcases bn with _ | ⟨b, bt⟩
    · exact absurd rfl hbnne
    subst hbs'
    have hcons : ((b :: bt) ++ [modelEnd tb]) = b :: (bt ++ [modelEnd tb]) := rfl
    constructor
    · rw [hcons, List.chain'_cons]
      constructor
      · obtain ⟨p, hp, hpb⟩ := hmem' b (List.mem_cons_self b bt)
        exact hpb ▸ (hint p hp).1
      · rw [← hcons, List.chain'_append]
        refine ⟨hchain, List.chain'_singleton _, ?_⟩
        intro x hx y hy
        simp only [List.head?_cons, Option.mem_def, Option.some.injEq] at hy
        subst hy
        rw [Option.mem_def] at hx
        have hxmem : x ∈ b :: bt := List.mem_of_mem_getLast? (by rw [hx]; rfl)
        obtain ⟨p, hp, hpx⟩ := hmem' x hxmem
        exact hpx ▸ (hint p hp).2
    · intro x hx
      rcases List.mem_cons.mp hx with hx | hx
      · exact hx ▸ hvalidStart
      · rcases List.mem_append.mp hx with hx | hx
        · obtain ⟨p, hp, hpx⟩ := hmem' x hx
          exact hpx ▸ validPos_normalizePoint tb p (hval p hp)
        · simp only [List.mem_singleton] at hx
          exact hx ▸ hvalidEnd

/-- Adjacent pairs of a strictly increasing list are strictly increasing. -/
theorem chain'_zip_tail {R : IPosition → IPosition → Prop} :
    ∀ (l : List IPosition), List.Chain' R l →
      ∀ ab ∈ l.zip l.tail, R ab.1 ab.2 := by
  intro l
  induction l with
  | nil => intro _ ab hab; exact absurd hab (by simp)
  | cons a t ih =>
      intro hc ab hab
      cases t with
      | nil => exact absurd hab (by simp)
      | cons b t' =>
          rw [show (a :: b :: t').tail = b :: t' from rfl, List.zip_cons_cons] at hab
          rcases List.mem_cons.mp hab with hab | hab
          · subst hab
            exact (List.chain'_cons.mp hc).1
          · exact ih (List.chain'_cons.mp hc).2 ab hab

/-- A segment between two strictly increasing positions inside the buffer is
never empty (given a non-empty EOL). -/
theorem getValueInRange_ne_nil (tb : TextBuffer) (a b : IPosition)
    (heol : tb.eol ≠ []) (ha : validPos tb a) (hb : validPos tb b)
    (hab : posLt a b) : tb.getValueInRange a b ≠ [] := by
  unfold TextBuffer.getValueInRange
  unfold validPos at ha hb
  unfold posLt at hab
  by_cases hline : a.lineNumber = b.lineNumber
  · rw [if_pos hline]
    have hcol : a.column < b.column := by omega
    have hlen : b.column ≤ tb.getLineLength a.lineNumber + 1 := by
      rw [hline]
      omega
    unfold TextBuffer.getLineLength at hlen
    intro hcontra
    have := congrArg List.length hcontra
    simp only [List.length_take, List.length_drop, List.length_nil] at this
    rw [hline] at this
    unfold TextBuffer.getLineLength at *
    rw [← hline] at this
    omega
  · rw [if_neg hline]
    intro hcontra
    rw [List.append_assoc, List.append_eq_nil, List.append_eq_nil] at hcontra
    exact heol hcontra.2.1

/-- C6 (amended): for every cell (with a non-empty EOL) and every list of
split points each of which is inside the buffer and normalizes strictly
between the buffer start and the buffer end, `computeCellLinesContents`
returns no empty segment; in particular end-of-line split points on
non-final lines, which normalize to the start of the next line, produce no
empty segment.  (A split point at — or normalizing to — the buffer end does
produce an empty trailing segment; see the counterexample.) -/
theorem computeCellLines_no_empty_interior (cell : Cell) (splitPoints : List IPosition)
    (heol : cell.textBuffer.eol ≠ [])
    (hval : ∀ p ∈ splitPoints, validPos cell.textBuffer p)
    (hint : ∀ p ∈ splitPoints,
        posLt modelStart (normalizePoint cell.textBuffer p)
        ∧ posLt (normalizePoint cell.textBuffer p) (modelEnd cell.textBuffer)) :
    ([] : List Char) ∉ (computeCellLinesContents cell splitPoints).getD [] := by
  unfold computeCellLinesContents
  cases hsb : splitPointsToBoundaries splitPoints cell.textBuffer with
  | none => simp
  | some bs =>
      obtain ⟨hchain, hvalid⟩ :=
        splitPointsToBoundaries_spec cell.textBuffer splitPoints hval hint bs hsb
      simp only [Option.getD_some]
      intro hmem
      rw [List.mem_map] at hmem
      obtain ⟨ab, hab, habval⟩ := hmem
      obtain ⟨a, b⟩ := ab
      obtain ⟨hamem, hbmem⟩ := List.of_mem_zip hab
      exact getValueInRange_ne_nil cell.textBuffer a b heol
        (hvalid a hamem) (hvalid b (List.mem_of_mem_tail hbmem))
        (chain'_zip_tail bs hchain (a, b) hab) habval

/-- C6 counterexample: on the one-line cell `ab`, the split point `(1, 3)` is
exactly at an end-of-line boundary (column = line length + 1), yet
`computeCellLinesContents` returns `["ab", ""]` — an empty trailing segment
produced by that boundary split point. -/
theorem computeCellLines_empty_trailing_counterexample :
    cellW1.textBuffer.getLineLength 1 + 1 = 3
    ∧ computeCellLinesContents cellW1 [⟨1, 3⟩] = some [['a', 'b'], []]
    ∧ ([] : List Char) ∈ (computeCellLinesContents cellW1 [⟨1, 3⟩]).getD [] := by
  decide

/-- Witness for C6 at a concrete input: splitting the two-line cell `ab`/`cd`
at `(1, 2)` satisfies the hypotheses and yields only non-empty segments. -/
theorem computeCellLines_no_empty_interior_witness :
    ((['\n'] : List Char) ≠ []
      ∧ (∀ p ∈ [(⟨1, 2⟩ : IPosition)], validPos cellW4.textBuffer p)
      ∧ (∀ p ∈ [(⟨1, 2⟩ : IPosition)],
            posLt modelStart (normalizePoint cellW4.textBuffer p)
            ∧ posLt (normalizePoint cellW4.textBuffer p) (modelEnd cellW4.textBuffer)))
    ∧ ([] : List Char) ∉ (computeCellLinesContents cellW4 [⟨1, 2⟩]).getD [] := by
  refine ⟨⟨by decide, by decide, by decide⟩, ?_⟩
  exact computeCellLines_no_empty_interior cellW4 [⟨1, 2⟩] (by decide) (by decide) (by decide)

end Nb
